import Mathlib

/-!
Verification of the quantum-circuit simulator in `task_1.py`
(classes `GateSimulator`, `GateSVSimulator`, `GateTensorSimulator`).

Modelling conventions:
* Amplitudes are embedded exactly in the ring ℚ[√2, i] (`Amp` below): every
  matrix entry produced by the program (entries of I, X, H, Y, Z, the
  projectors |0⟩⟨0|, |1⟩⟨1|, and all their Kronecker products) and every state
  amplitude reachable from a basis state lies in this ring, so the program's
  floating-point arithmetic is interpreted by its exact value.  The spec's
  numeric tolerances (1e-9 per amplitude) are subsumed by exact equality.
* `numpy` matrices and vectors are embedded as `ℕ → ℕ → Amp` functions with
  dimensions passed explicitly where an operation needs them, matching the
  index arithmetic of `np.kron` (`(A ⊗ B)[i, j] = A[i / p, j / q] * B[i % p, j % q]`
  for `B` of shape `p × q`).
* The process-wide `np.random` generator is embedded as an explicit state of
  type ℕ threaded through every call, with the generator's primitive draws
  supplied by an `RNGModel` structure: the generator itself is external
  library code, so theorems about randomness are parametrised over the model
  and use only the facts that seeding and drawing are deterministic state
  transitions and which calls consume draws.
-/

/-- An element `re1 + reS·√2 + (im1 + imS·√2)·i` of the ring ℚ[√2, i]; the
exact value of every amplitude the simulator manipulates. -/
structure Amp where
  re1 : ℚ
  reS : ℚ
  im1 : ℚ
  imS : ℚ
deriving DecidableEq

theorem Amp.ext_comp {x y : Amp} (h1 : x.re1 = y.re1) (h2 : x.reS = y.reS)
    (h3 : x.im1 = y.im1) (h4 : x.imS = y.imS) : x = y := by
  cases x; cases y; simp_all

instance : Zero Amp := ⟨⟨0, 0, 0, 0⟩⟩

instance : One Amp := ⟨⟨1, 0, 0, 0⟩⟩

instance : Add Amp := ⟨fun x y => ⟨x.re1 + y.re1, x.reS + y.reS, x.im1 + y.im1, x.imS + y.imS⟩⟩

instance : Neg Amp := ⟨fun x => ⟨-x.re1, -x.reS, -x.im1, -x.imS⟩⟩

instance : Mul Amp :=
  ⟨fun x y =>
    ⟨x.re1 * y.re1 + 2 * x.reS * y.reS - x.im1 * y.im1 - 2 * x.imS * y.imS,
     x.re1 * y.reS + x.reS * y.re1 - x.im1 * y.imS - x.imS * y.im1,
     x.re1 * y.im1 + 2 * x.reS * y.imS + x.im1 * y.re1 + 2 * x.imS * y.reS,
     x.re1 * y.imS + x.reS * y.im1 + x.im1 * y.reS + x.imS * y.re1⟩⟩

@[simp] theorem Amp.zero_re1 : (0 : Amp).re1 = 0 := rfl
@[simp] theorem Amp.zero_reS : (0 : Amp).reS = 0 := rfl
@[simp] theorem Amp.zero_im1 : (0 : Amp).im1 = 0 := rfl
@[simp] theorem Amp.zero_imS : (0 : Amp).imS = 0 := rfl
@[simp] theorem Amp.one_re1 : (1 : Amp).re1 = 1 := rfl
@[simp] theorem Amp.one_reS : (1 : Amp).reS = 0 := rfl
@[simp] theorem Amp.one_im1 : (1 : Amp).im1 = 0 := rfl
@[simp] theorem Amp.one_imS : (1 : Amp).imS = 0 := rfl
@[simp] theorem Amp.add_re1 (x y : Amp) : (x + y).re1 = x.re1 + y.re1 := rfl
@[simp] theorem Amp.add_reS (x y : Amp) : (x + y).reS = x.reS + y.reS := rfl
@[simp] theorem Amp.add_im1 (x y : Amp) : (x + y).im1 = x.im1 + y.im1 := rfl
@[simp] theorem Amp.add_imS (x y : Amp) : (x + y).imS = x.imS + y.imS := rfl
@[simp] theorem Amp.neg_re1 (x : Amp) : (-x).re1 = -x.re1 := rfl
@[simp] theorem Amp.neg_reS (x : Amp) : (-x).reS = -x.reS := rfl
@[simp] theorem Amp.neg_im1 (x : Amp) : (-x).im1 = -x.im1 := rfl
@[simp] theorem Amp.neg_imS (x : Amp) : (-x).imS = -x.imS := rfl
@[simp] theorem Amp.mul_re1 (x y : Amp) :
    (x * y).re1 = x.re1 * y.re1 + 2 * x.reS * y.reS - x.im1 * y.im1 - 2 * x.imS * y.imS := rfl
@[simp] theorem Amp.mul_reS (x y : Amp) :
    (x * y).reS = x.re1 * y.reS + x.reS * y.re1 - x.im1 * y.imS - x.imS * y.im1 := rfl
@[simp] theorem Amp.mul_im1 (x y : Amp) :
    (x * y).im1 = x.re1 * y.im1 + 2 * x.reS * y.imS + x.im1 * y.re1 + 2 * x.imS * y.reS := rfl
@[simp] theorem Amp.mul_imS (x y : Amp) :
    (x * y).imS = x.re1 * y.imS + x.reS * y.im1 + x.im1 * y.reS + x.imS * y.re1 := rfl

instance : CommRing Amp where
  nsmul := nsmulRec
  zsmul := zsmulRec
  add_assoc x y z := by apply Amp.ext_comp <;> simp <;> ring
  zero_add x := by apply Amp.ext_comp <;> simp
  add_zero x := by apply Amp.ext_comp <;> simp
  add_comm x y := by apply Amp.ext_comp <;> simp <;> ring
  mul_assoc x y z := by apply Amp.ext_comp <;> simp <;> ring
  one_mul x := by apply Amp.ext_comp <;> simp
  mul_one x := by apply Amp.ext_comp <;> simp
  left_distrib x y z := by apply Amp.ext_comp <;> simp <;> ring
  right_distrib x y z := by apply Amp.ext_comp <;> simp <;> ring
  mul_comm x y := by apply Amp.ext_comp <;> simp <;> ring
  zero_mul x := by apply Amp.ext_comp <;> simp
  mul_zero x := by apply Amp.ext_comp <;> simp
  neg_add_cancel x := by apply Amp.ext_comp <;> simp

/-- The rational `q` as an element of ℚ[√2, i]. -/
def Amp.ofRat (q : ℚ) : Amp := ⟨q, 0, 0, 0⟩

@[simp] theorem Amp.ofRat_re1 (q : ℚ) : (Amp.ofRat q).re1 = q := rfl
@[simp] theorem Amp.ofRat_reS (q : ℚ) : (Amp.ofRat q).reS = 0 := rfl
@[simp] theorem Amp.ofRat_im1 (q : ℚ) : (Amp.ofRat q).im1 = 0 := rfl
@[simp] theorem Amp.ofRat_imS (q : ℚ) : (Amp.ofRat q).imS = 0 := rfl

/-- Complex conjugation on ℚ[√2, i]. -/
def Amp.conj (x : Amp) : Amp := ⟨x.re1, x.reS, -x.im1, -x.imS⟩

/-- Real part (`np.real`): the projection killing the imaginary components. -/
def Amp.reK (x : Amp) : Amp := ⟨x.re1, x.reS, 0, 0⟩

/-- An amplitude is real when both imaginary components vanish. -/
def Amp.IsReal (x : Amp) : Prop := x.im1 = 0 ∧ x.imS = 0

instance (x : Amp) : Decidable x.IsReal := by unfold Amp.IsReal; infer_instance

/-- Squared magnitude `x * conj x` (a real element of the ring). -/
def Amp.normSq (x : Amp) : Amp := x * x.conj

theorem Amp.normSq_isReal (x : Amp) : x.normSq.IsReal := by
  obtain ⟨a, b, c, d⟩ := x
  constructor <;> simp [Amp.normSq, Amp.conj] <;> ring

theorem Amp.normSq_mul (x y : Amp) : (x * y).normSq = x.normSq * y.normSq := by
  obtain ⟨a, b, c, d⟩ := x
  obtain ⟨a', b', c', d'⟩ := y
  apply Amp.ext_comp <;> simp [Amp.normSq, Amp.conj] <;> ring

theorem Amp.conj_of_isReal {x : Amp} (h : x.IsReal) : x.conj = x := by
  obtain ⟨h1, h2⟩ := h
  apply Amp.ext_comp <;> simp [Amp.conj, h1, h2]

/-- Decidable predicate for `0 ≤ a + b·√2` stated purely over ℚ. -/
def KNonneg (a b : ℚ) : Prop :=
  (0 ≤ a ∧ 0 ≤ b) ∨ (0 ≤ a ∧ 2 * b ^ 2 ≤ a ^ 2) ∨ (0 ≤ b ∧ a ^ 2 ≤ 2 * b ^ 2)

instance (a b : ℚ) : Decidable (KNonneg a b) := by unfold KNonneg; infer_instance

/-- Decidable predicate for `0 < a + b·√2` stated purely over ℚ. -/
def KPos (a b : ℚ) : Prop :=
  (0 ≤ a ∧ 0 < b) ∨ (0 < a ∧ 2 * b ^ 2 < a ^ 2) ∨ (0 < b ∧ a ^ 2 < 2 * b ^ 2)

instance (a b : ℚ) : Decidable (KPos a b) := by unfold KPos; infer_instance

/-- `KNonneg a b` captures exactly `0 ≤ a + b·√2` over the reals. -/
theorem kNonneg_iff (a b : ℚ) : KNonneg a b ↔ 0 ≤ (a : ℝ) + (b : ℝ) * Real.sqrt 2 := by
  have hs : (0:ℝ) < Real.sqrt 2 := Real.sqrt_pos.mpr (by norm_num)
  have hs2 : Real.sqrt 2 ^ 2 = 2 := Real.sq_sqrt (by norm_num)
  constructor
  · rintro (⟨ha, hb⟩ | ⟨ha, hq⟩ | ⟨hb, hq⟩)
    · have ha' : (0:ℝ) ≤ (a:ℚ) := by exact_mod_cast ha
      have hb' : (0:ℝ) ≤ (b:ℚ) := by exact_mod_cast hb
      nlinarith
    · have ha' : (0:ℝ) ≤ (a:ℚ) := by exact_mod_cast ha
      have hq' : 2 * (b:ℝ) ^ 2 ≤ (a:ℝ) ^ 2 := by exact_mod_cast hq
      rcases le_or_lt 0 (b:ℝ) with hb' | hb'
      · nlinarith
      · by_contra hcon
        push_neg at hcon
        have h1 : (a:ℝ) < -((b:ℝ) * Real.sqrt 2) := by linarith
        have key := mul_self_lt_mul_self ha' h1
        nlinarith [key, hs2]
    · have hb' : (0:ℝ) ≤ (b:ℚ) := by exact_mod_cast hb
      have hq' : (a:ℝ) ^ 2 ≤ 2 * (b:ℝ) ^ 2 := by exact_mod_cast hq
      rcases le_or_lt 0 (a:ℝ) with ha' | ha'
      · nlinarith
      · by_contra hcon
        push_neg at hcon
        have hbs : (0:ℝ) ≤ (b:ℝ) * Real.sqrt 2 := mul_nonneg hb' hs.le
        have h1 : (b:ℝ) * Real.sqrt 2 < -(a:ℝ) := by linarith
        have key := mul_self_lt_mul_self hbs h1
        nlinarith [key, hs2]
  · intro h
    by_contra hc
    unfold KNonneg at hc
    push_neg at hc
    obtain ⟨h1, h2, h3⟩ := hc
    rcases le_or_lt 0 b with hb | hb
    · have hq := h3 hb
      have hq' : 2 * (b:ℝ) ^ 2 < (a:ℝ) ^ 2 := by exact_mod_cast hq
      have hb' : (0:ℝ) ≤ (b:ℚ) := by exact_mod_cast hb
      rcases le_or_lt 0 a with ha | ha
      · exact absurd (h1 ha) (not_lt.mpr hb)
      · have ha' : (a:ℝ) < 0 := by exact_mod_cast ha
        have hbs : (0:ℝ) ≤ (b:ℝ) * Real.sqrt 2 := mul_nonneg hb' hs.le
        have h4 : -(a:ℝ) ≤ (b:ℝ) * Real.sqrt 2 := by linarith
        have key := mul_self_le_mul_self (by linarith : (0:ℝ) ≤ -(a:ℝ)) h4
        nlinarith [key, hs2]
    · have hb' : (b:ℝ) < 0 := by exact_mod_cast hb
      have hbs : (b:ℝ) * Real.sqrt 2 < 0 := mul_neg_of_neg_of_pos hb' hs
      rcases le_or_lt 0 a with ha | ha
      · have hq := h2 ha
        have hq' : (a:ℝ) ^ 2 < 2 * (b:ℝ) ^ 2 := by exact_mod_cast hq
        have ha' : (0:ℝ) ≤ (a:ℚ) := by exact_mod_cast ha
        have h4 : -((b:ℝ) * Real.sqrt 2) ≤ (a:ℝ) := by linarith
        have key := mul_self_le_mul_self (by linarith : (0:ℝ) ≤ -((b:ℝ) * Real.sqrt 2)) h4
        nlinarith [key, hs2]
      · have ha' : (a:ℝ) < 0 := by exact_mod_cast ha
        linarith

/-- `KPos a b` captures exactly `0 < a + b·√2` over the reals. -/
theorem kPos_iff (a b : ℚ) : KPos a b ↔ 0 < (a : ℝ) + (b : ℝ) * Real.sqrt 2 := by
  have hs : (0:ℝ) < Real.sqrt 2 := Real.sqrt_pos.mpr (by norm_num)
  have hs2 : Real.sqrt 2 ^ 2 = 2 := Real.sq_sqrt (by norm_num)
  constructor
  · rintro (⟨ha, hb⟩ | ⟨ha, hq⟩ | ⟨hb, hq⟩)
    · have ha' : (0:ℝ) ≤ (a:ℚ) := by exact_mod_cast ha
      have hb' : (0:ℝ) < (b:ℚ) := by exact_mod_cast hb
      nlinarith
    · have ha' : (0:ℝ) < (a:ℚ) := by exact_mod_cast ha
      have hq' : 2 * (b:ℝ) ^ 2 < (a:ℝ) ^ 2 := by exact_mod_cast hq
      rcases le_or_lt 0 (b:ℝ) with hb' | hb'
      · nlinarith
      · by_contra hcon
        push_neg at hcon
        have h1 : (a:ℝ) ≤ -((b:ℝ) * Real.sqrt 2) := by linarith
        have key := mul_self_le_mul_self ha'.le h1
        nlinarith [key, hs2]
    · have hb' : (0:ℝ) < (b:ℚ) := by exact_mod_cast hb
      have hq' : (a:ℝ) ^ 2 < 2 * (b:ℝ) ^ 2 := by exact_mod_cast hq
      rcases le_or_lt 0 (a:ℝ) with ha' | ha'
      · nlinarith
      · by_contra hcon
        push_neg at hcon
        have hbs : (0:ℝ) ≤ (b:ℝ) * Real.sqrt 2 := mul_nonneg hb'.le hs.le
        have h1 : (b:ℝ) * Real.sqrt 2 ≤ -(a:ℝ) := by linarith
        have key := mul_self_le_mul_self hbs h1
        nlinarith [key, hs2]
  · intro h
    by_contra hc
    unfold KPos at hc
    push_neg at hc
    obtain ⟨h1, h2, h3⟩ := hc
    rcases lt_or_le 0 b with hb | hb
    · have hq := h3 hb
      have hq' : 2 * (b:ℝ) ^ 2 ≤ (a:ℝ) ^ 2 := by exact_mod_cast hq
      have hb' : (0:ℝ) < (b:ℚ) := by exact_mod_cast hb
      rcases le_or_lt 0 a with ha | ha
      · exact absurd hb (not_lt.mpr (h1 ha))
      · have ha' : (a:ℝ) < 0 := by exact_mod_cast ha
        have hbs : (0:ℝ) < (b:ℝ) * Real.sqrt 2 := mul_pos hb' hs
        have h4 : -(a:ℝ) < (b:ℝ) * Real.sqrt 2 := by linarith
        have key := mul_self_lt_mul_self (by linarith : (0:ℝ) ≤ -(a:ℝ)) h4
        nlinarith [key, hs2]
    · have hb' : (b:ℝ) ≤ 0 := by exact_mod_cast hb
      have hbs : (b:ℝ) * Real.sqrt 2 ≤ 0 := mul_nonpos_of_nonpos_of_nonneg hb' hs.le
      have ha' : (0:ℝ) < (a:ℝ) := by linarith
      have ha0 : 0 < a := by exact_mod_cast ha'
      have hq := h2 ha0
      have hq' : (a:ℝ) ^ 2 ≤ 2 * (b:ℝ) ^ 2 := by exact_mod_cast hq
      have h4 : -((b:ℝ) * Real.sqrt 2) < (a:ℝ) := by linarith
      have key := mul_self_lt_mul_self (by linarith : (0:ℝ) ≤ -((b:ℝ) * Real.sqrt 2)) h4
      nlinarith [key, hs2]

/-- Nonnegativity for an amplitude: it is real and its value `re1 + reS·√2`
is nonnegative. -/
def Amp.Nonneg (x : Amp) : Prop := x.im1 = 0 ∧ x.imS = 0 ∧ KNonneg x.re1 x.reS

instance (x : Amp) : Decidable x.Nonneg := by unfold Amp.Nonneg; infer_instance

/-! ## Vectors, matrices and the Kronecker product -/

/-- A numpy column vector, indexed by ℕ (entries beyond the length are 0). -/
abbrev Vec := ℕ → Amp

/-- A numpy matrix, indexed by ℕ × ℕ (entries beyond the shape are 0). -/
abbrev Mat := ℕ → ℕ → Amp

/-- `np.kron A B` where `B` has shape `p × q`:
`(A ⊗ B)[i, j] = A[i / p, j / q] * B[i % p, j % q]`. -/
def kron (p q : ℕ) (A B : Mat) : Mat :=
  fun i j => A (i / p) (j / q) * B (i % p) (j % q)

/-- The 1×1 matrix `[[1]]`, the start value of `kronecker_product`'s fold. -/
def matOne : Mat := fun i j => if i = 0 ∧ j = 0 then 1 else 0

/-- `GateSimulator.kronecker_product`: `result = [[1]]` then
`result = np.kron(result, arg)` over the (2×2) argument list, left to right. -/
def kronecker_product (ms : List Mat) : Mat :=
  ms.foldl (fun acc M => kron 2 2 acc M) matOne

/-- Matrix–vector product with inner dimension `m`. -/
def matVec (m : ℕ) (A : Mat) (v : Vec) : Vec :=
  fun i => ∑ j ∈ Finset.range m, A i j * v j

/-- Matrix–matrix product with inner dimension `m`. -/
def matMul (m : ℕ) (A B : Mat) : Mat :=
  fun i j => ∑ k ∈ Finset.range m, A i k * B k j

/-- The amplitude `1/√2 = √2/2`. -/
def hAmp : Amp := ⟨0, 1/2, 0, 0⟩

/-- The imaginary unit. -/
def iA : Amp := ⟨0, 0, 1, 0⟩

/-- `self.I`, the 2×2 identity. -/
def gateI : Mat := fun i j =>
  if i = 0 ∧ j = 0 then 1 else if i = 1 ∧ j = 1 then 1 else 0

/-- `self.X`, the Pauli-X matrix. -/
def gateX : Mat := fun i j =>
  if i = 0 ∧ j = 1 then 1 else if i = 1 ∧ j = 0 then 1 else 0

/-- `self.H`, the Hadamard matrix `(1/√2)·[[1,1],[1,-1]]`. -/
def gateH : Mat := fun i j =>
  if i = 1 ∧ j = 1 then -hAmp else if i < 2 ∧ j < 2 then hAmp else 0

/-- `self.Z`, the Pauli-Z matrix. -/
def gateZ : Mat := fun i j =>
  if i = 0 ∧ j = 0 then 1 else if i = 1 ∧ j = 1 then -1 else 0

/-- `self.Y`, the Pauli-Y matrix `[[0,-i],[i,0]]`. -/
def gateY : Mat := fun i j =>
  if i = 0 ∧ j = 1 then -iA else if i = 1 ∧ j = 0 then iA else 0

/-- The column vector `|0⟩ = [1, 0]ᵀ` (`zero` in `initialize_state`). -/
def vec0 : Vec := fun i => if i = 0 then 1 else 0

/-- The column vector `|1⟩ = [0, 1]ᵀ` (`one` in `initialize_state`). -/
def vec1 : Vec := fun i => if i = 1 then 1 else 0

/-- `np.kron` of a column vector with a 2×1 column vector. -/
def kronVec (v w : Vec) : Vec := fun i => v (i / 2) * w (i % 2)

/-- Value of a bitstring read left to right, leftmost character most
significant (the row index of the basis state built by `initialize_state`). -/
def bitsVal (bits : List Char) : ℕ :=
  bits.foldl (fun acc c => 2 * acc + (if c = '1' then 1 else 0)) 0

/-- The vector-building loop of `GateSimulator.initialize_state`:
`state = np.matrix((1))`, then `state = np.kron(state, one/zero)` per bit. -/
def buildBasisVec (bits : List Char) : Vec :=
  bits.foldl (fun st c => kronVec st (if c = '1' then vec1 else vec0))
    (fun i => if i = 0 then 1 else 0)

theorem kronVec_basis (a b : ℕ) (hb : b < 2) (w : Vec)
    (hw : w = fun i => if i = b then 1 else 0) :
    kronVec (fun i => if i = a then 1 else 0) w
      = fun i => if i = 2 * a + b then 1 else 0 := by
  subst hw
  funext i
  simp only [kronVec]
  by_cases h : i = 2 * a + b
  · have h1 : i / 2 = a := by omega
    have h2 : i % 2 = b := by omega
    rw [if_pos h1, if_pos h2, if_pos h, one_mul]
  · have hor : i / 2 ≠ a ∨ i % 2 ≠ b := by omega
    rw [if_neg h]
    rcases hor with h1 | h2
    · rw [if_neg h1, zero_mul]
    · rw [if_neg h2, mul_zero]

theorem buildBasisVec_go (bits : List Char) (a : ℕ) :
    bits.foldl (fun st c => kronVec st (if c = '1' then vec1 else vec0))
        (fun i => if i = a then 1 else 0)
      = fun i =>
          if i = bits.foldl (fun acc c => 2 * acc + (if c = '1' then 1 else 0)) a then 1
          else 0 := by
  induction bits generalizing a with
  | nil => rfl
  | cons c rest ih =>
    simp only [List.foldl_cons]
    rw [kronVec_basis a (if c = '1' then 1 else 0) (by split <;> norm_num)
      (if c = '1' then vec1 else vec0) (by split <;> rfl)]
    exact ih (2 * a + if c = '1' then 1 else 0)

/-- Closed form: `initialize_state` builds exactly the computational basis
vector whose index is the bitstring's value. -/
theorem buildBasisVec_eq (bits : List Char) :
    buildBasisVec bits = fun i => if i = bitsVal bits then 1 else 0 :=
  buildBasisVec_go bits 0

/-- `GateSimulator.to_bin`: `bin(d)[2:].zfill(n)`. -/
def to_bin (n d : ℕ) : String :=
  ⟨List.replicate (n - (Nat.toDigits 2 d).length) '0' ++ Nat.toDigits 2 d⟩

/-- Bit `q` of `x` as the arithmetic value `x / 2^q % 2`. -/
def bitAt (q x : ℕ) : ℕ := x / 2 ^ q % 2

theorem bitAt_lt_two (q x : ℕ) : bitAt q x < 2 := Nat.mod_lt _ (by norm_num)

theorem bitAt_testBit (q x : ℕ) : bitAt q x = if x.testBit q then 1 else 0 := by
  rw [Nat.testBit_to_div_mod]
  unfold bitAt
  rcases Nat.mod_two_eq_zero_or_one (x / 2 ^ q) with h | h <;> simp [h]

theorem eq_of_bits_eq {n i j : ℕ} (hi : i < 2 ^ n) (hj : j < 2 ^ n)
    (h : ∀ q < n, bitAt q i = bitAt q j) : i = j := by
  apply Nat.eq_of_testBit_eq
  intro q
  rcases lt_or_le q n with hq | hq
  · have := h q hq
    rw [bitAt_testBit, bitAt_testBit] at this
    by_cases h1 : i.testBit q <;> by_cases h2 : j.testBit q <;> simp_all
  · have h2n : 2 ^ n ≤ 2 ^ q := Nat.pow_le_pow_right (by norm_num) hq
    rw [Nat.testBit_lt_two_pow (lt_of_lt_of_le hi h2n),
      Nat.testBit_lt_two_pow (lt_of_lt_of_le hj h2n)]

/-! ## Entry formula for folded Kronecker products of 2×2 matrices -/

theorem kronecker_product_append (ms : List Mat) (M : Mat) :
    kronecker_product (ms ++ [M]) = kron 2 2 (kronecker_product ms) M := by
  unfold kronecker_product
  rw [List.foldl_append]
  rfl

/-- Entry formula: position `p` of the list of 2×2 factors reads bit
`length - 1 - p` of the row and column indices. -/
theorem kronecker_product_entry (ms : List Mat) (i j : ℕ)
    (hi : i < 2 ^ ms.length) (hj : j < 2 ^ ms.length) :
    kronecker_product ms i j =
      ∏ p ∈ Finset.range ms.length,
        (ms.getD p gateI) (i / 2 ^ (ms.length - 1 - p) % 2)
          (j / 2 ^ (ms.length - 1 - p) % 2) := by
  induction ms using List.reverseRecOn generalizing i j with
  | nil =>
    have hi0 : i = 0 := by simpa [Nat.lt_one_iff] using hi
    have hj0 : j = 0 := by simpa [Nat.lt_one_iff] using hj
    subst hi0; subst hj0
    simp [kronecker_product, matOne]
  | append_singleton ms M ih =>
    simp only [List.length_append, List.length_cons, List.length_nil] at hi hj ⊢
    rw [kronecker_product_append]
    have hdi : i / 2 < 2 ^ ms.length := by
      rw [Nat.div_lt_iff_lt_mul (by norm_num : (0:ℕ) < 2)]
      calc i < 2 ^ (ms.length + 1) := hi
        _ = 2 ^ ms.length * 2 := by rw [pow_succ]
    have hdj : j / 2 < 2 ^ ms.length := by
      rw [Nat.div_lt_iff_lt_mul (by norm_num : (0:ℕ) < 2)]
      calc j < 2 ^ (ms.length + 1) := hj
        _ = 2 ^ ms.length * 2 := by rw [pow_succ]
    rw [Finset.prod_range_succ]
    have hlast : (ms ++ [M]).getD ms.length gateI = M := by
      rw [List.getD_append_right ms [M] gateI ms.length (le_refl _)]
      simp
    have hprod : ∀ p ∈ Finset.range ms.length,
        (ms ++ [M]).getD p gateI (i / 2 ^ (ms.length + 1 - 1 - p) % 2)
            (j / 2 ^ (ms.length + 1 - 1 - p) % 2)
          = ms.getD p gateI (i / 2 / 2 ^ (ms.length - 1 - p) % 2)
              (j / 2 / 2 ^ (ms.length - 1 - p) % 2) := by
      intro p hp
      rw [Finset.mem_range] at hp
      have hexp : (2:ℕ) * 2 ^ (ms.length - 1 - p) = 2 ^ (ms.length + 1 - 1 - p) := by
        rw [← pow_succ']
        congr 1
        omega
      rw [List.getD_append ms [M] gateI p hp, Nat.div_div_eq_div_mul,
        Nat.div_div_eq_div_mul, hexp]
    rw [Finset.prod_congr rfl hprod, hlast]
    have hexp0 : ms.length + 1 - 1 - ms.length = 0 := by omega
    rw [hexp0, pow_zero]
    simp only [Nat.div_one]
    show kronecker_product ms (i / 2) (j / 2) * M (i % 2) (j % 2) = _
    rw [ih (i / 2) (j / 2) hdi hdj]

/-- Entry formula indexed by qubits: list position `n - 1 - q` acts on qubit
`q`, i.e. reads bit `q` (little-endian) of the row and column indices. -/
theorem kronecker_product_entry_bits (ms : List Mat) (n : ℕ) (hn : ms.length = n)
    (i j : ℕ) (hi : i < 2 ^ n) (hj : j < 2 ^ n) :
    kronecker_product ms i j =
      ∏ q ∈ Finset.range n, (ms.getD (n - 1 - q) gateI) (bitAt q i) (bitAt q j) := by
  subst hn
  rw [kronecker_product_entry ms i j hi hj]
  conv_rhs => rw [← Finset.prod_range_reflect]
  apply Finset.prod_congr rfl
  intro p hp
  rw [Finset.mem_range] at hp
  have h1 : ms.length - 1 - (ms.length - 1 - p) = p := by omega
  rw [h1]
  rfl

theorem getD_replicate_self {α : Type} (n k : ℕ) (x : α) :
    (List.replicate n x).getD k x = x := by
  rcases lt_or_le k n with h | h
  · rw [List.getD_eq_getElem _ _ (by simpa using h)]
    simp
  · rw [List.getD_eq_default _ _ (by simpa using h)]

theorem gateI_entry (a b : ℕ) (ha : a < 2) (hb : b < 2) :
    gateI a b = if a = b then 1 else 0 := by
  interval_cases a <;> interval_cases b <;> simp [gateI]

/-- The fold of `np.kron` over `n` copies of the identity is the 2^n × 2^n
identity matrix. -/
theorem kronecker_product_replicate_I (n i j : ℕ) (hi : i < 2 ^ n) (hj : j < 2 ^ n) :
    kronecker_product (List.replicate n gateI) i j = if i = j then 1 else 0 := by
  rw [kronecker_product_entry_bits _ n (List.length_replicate n gateI) i j hi hj]
  have h1 : ∀ q ∈ Finset.range n,
      (List.replicate n gateI).getD (n - 1 - q) gateI (bitAt q i) (bitAt q j)
        = if bitAt q i = bitAt q j then 1 else 0 := by
    intro q hq
    rw [getD_replicate_self, gateI_entry _ _ (bitAt_lt_two q i) (bitAt_lt_two q j)]
  rw [Finset.prod_congr rfl h1, Finset.prod_boole]
  by_cases hij : i = j
  · simp [hij]
  · rw [if_neg hij, if_neg]
    intro hall
    exact hij (eq_of_bits_eq hi hj fun q hq => hall q (Finset.mem_range.mpr hq))

/-! ## Simulator state, random generator interface, and methods -/

/-- The attributes of a simulator instance the claims depend on.  Both
engines' states are kept as flat vectors: the rank-n tensor of
`GateTensorSimulator` is C-ordered with axis 0 most significant, so
`flatten`/`reshape` are the identity on this representation. -/
structure Sim where
  n : ℕ
  seed : ℤ
  state : Vec

/-- Deterministic model of numpy's global random generator (external library
code): a state of type ℕ, a seeding function and primitive draws.
`randint g b` models `np.random.randint(0, b)` returning the value and the
advanced state; `randbit` models drawing one element of
`np.random.choice(['0','1'])`; `sample` models the state advance of the
1024-sample `np.random.choice` call in `sample_probability`.  `randint_lt`
records numpy's contract that `randint(0, b) < b`. -/
structure RNGModel where
  seedFn : ℤ → ℕ
  randint : ℕ → ℕ → ℕ × ℕ
  randbit : ℕ → Bool × ℕ
  sample : ℕ → List ℚ → ℕ
  randint_lt : ∀ g b, 0 < b → (randint g b).1 < b

/-- A concrete instantiation of the generator interface (an arithmetic
stand-in used to evaluate the parametric theorems at concrete inputs). -/
def lcg : RNGModel where
  seedFn s := s.natAbs
  randint g b := (g % b, 7 * g + 3)
  randbit g := (g % 2 = 1, 7 * g + 3)
  sample g _ := 7 * g + 3
  randint_lt g b hb := Nat.mod_lt _ hb

/-- `''.join(np.random.choice(['0', '1'], size=k))`: draw `k` random bits as
characters, left to right. -/
def drawBits (M : RNGModel) : ℕ → ℕ → List Char × ℕ
  | 0, g => ([], g)
  | k + 1, g =>
    let (b, g1) := M.randbit g
    let (rest, g2) := drawBits M k g1
    ((if b then '1' else '0') :: rest, g2)

/-- The seed handling of `GateSimulator.__init__`:
`self.seed = seed if seed else np.random.randint(0, 1000000)` — Python
truthiness makes `seed = 0` fall through to the random branch — followed by
`np.random.seed(self.seed)`, which replaces the global generator state.
Returns the stored seed and the generator state after seeding. -/
def gateSimulator_init_seed (M : RNGModel) (seed : Option ℤ) (g : ℕ) : ℤ × ℕ :=
  let s : ℤ :=
    match seed with
    | some s0 => if s0 ≠ 0 then s0 else ((M.randint g 1000000).1 : ℤ)
    | none => ((M.randint g 1000000).1 : ℤ)
  (s, M.seedFn s)

/-- `GateSimulator.initialize_state`: every character must be '0' or '1'
(there is no length check); the basis column vector is built by repeated
`np.kron`; `self.state` is rebound only when `change` is set; the vector is
returned either way. -/
def initialize_state (sim : Sim) (bits : List Char) (change : Bool) :
    Except String (Vec × Sim) :=
  if bits.all (fun c => c == '0' || c == '1') then
    let st := buildBasisVec bits
    Except.ok (st, if change then { sim with state := st } else sim)
  else Except.error "bitstring must not contain characters other than 0 and 1"

/-- `GateSimulator.CX`: bounds check; `control == target` returns the n-fold
identity; otherwise the sum of the two Kronecker products with the
|0⟩ / |1⟩ projectors (built from `initialize_state` outer products, with
`change` unset) at list position `-1 - control` and X at `-1 - target`. -/
def simCX (sim : Sim) (control target : ℕ) : Except String (Mat × Sim) :=
  if control ≥ sim.n ∨ target ≥ sim.n then
    Except.error "Control or target is out of bounds"
  else if control = target then
    Except.ok (kronecker_product (List.replicate sim.n gateI), sim)
  else do
    let (va, sim1) ← initialize_state sim ['0'] false
    let (vb, sim2) ← initialize_state sim1 ['0'] false
    let (vc, sim3) ← initialize_state sim2 ['1'] false
    let (vd, sim4) ← initialize_state sim3 ['1'] false
    let proj0 : Mat := fun i j => va i * vb j
    let proj1 : Mat := fun i j => vc i * vd j
    let zero_args := (List.replicate sim.n gateI).set (sim.n - 1 - control) proj0
    let one_args :=
      ((List.replicate sim.n gateI).set (sim.n - 1 - control) proj1).set
        (sim.n - 1 - target) gateX
    Except.ok (kronecker_product zero_args + kronecker_product one_args, sim4)

/-- The scalar `np.real(state @ Gate_n @ state.T)` computed by
`calculate_expectation_value`: the real part of the double sum
`Σᵢ Σⱼ ψᵢ Gᵢⱼ ψⱼ` (note `.T` is a transpose without conjugation). -/
def expectationRaw (n : ℕ) (ψ : Vec) (G : Mat) : Amp :=
  Amp.reK (∑ i ∈ Finset.range (2 ^ n), ∑ j ∈ Finset.range (2 ^ n), ψ i * G i j * ψ j)

/-- `GateSimulator.calculate_expectation_value`: validate the gate name, lift
the observable to n qubits by `kronecker_product` over `n` copies, and return
`np.real(state @ Gate_n @ state.T)`. -/
def calculate_expectation_value (sim : Sim) (gate : String) : Except String Amp :=
  if gate ∉ (["X", "H", "I", "Y", "Z"] : List String) then Except.error "gate not found"
  else
    let Gate := if gate = "X" then gateX else if gate = "H" then gateH
      else if gate = "Y" then gateY else if gate = "Z" then gateZ else gateI
    Except.ok (expectationRaw sim.n sim.state (kronecker_product (List.replicate sim.n Gate)))

/-- `GateSVSimulator.__init__`: base seed handling, then an n-character
random bitstring is drawn unconditionally, and `initialize_state(·, change=True)`
is called on the explicit bitstring when one is given (nonempty, by Python
truthiness) and on the drawn one otherwise. -/
def svInit (M : RNGModel) (n : ℕ) (state : Option (List Char)) (seed : Option ℤ)
    (g : ℕ) : Except String (Sim × ℕ) :=
  let (s, g1) := gateSimulator_init_seed M seed g
  let (drawn, g2) := drawBits M n g1
  let sim0 : Sim := { n := n, seed := s, state := fun _ => 0 }
  let chosen :=
    match state with
    | some bits => if bits.isEmpty then drawn else bits
    | none => drawn
  match initialize_state sim0 chosen true with
  | Except.error e => Except.error e
  | Except.ok (_, sim1) => Except.ok (sim1, g2)

/-- `GateTensorSimulator.__init__`: base seed handling, `np.zeros` state, and
the random bitstring is drawn only when no (nonempty) explicit state is
given; the 1 is placed at the multi-index given by the bitstring (flat index
= bitstring value).  A character outside '0'/'1' would index outside the
axes; modelled as an error. -/
def tensorInit (M : RNGModel) (n : ℕ) (state : Option (List Char)) (seed : Option ℤ)
    (g : ℕ) : Except String (Sim × ℕ) :=
  let (s, g1) := gateSimulator_init_seed M seed g
  match state with
  | some bits =>
    if bits.isEmpty then
      let (drawn, g2) := drawBits M n g1
      Except.ok ({ n := n, seed := s, state := fun i => if i = bitsVal drawn then 1 else 0 }, g2)
    else if bits.all (fun c => c == '0' || c == '1') then
      Except.ok ({ n := n, seed := s, state := fun i => if i = bitsVal bits then 1 else 0 }, g1)
    else Except.error "index out of bounds"
  | none =>
    let (drawn, g2) := drawBits M n g1
    Except.ok ({ n := n, seed := s, state := fun i => if i = bitsVal drawn then 1 else 0 }, g2)

/-- The `while target == control` retry loop of `make_operations`, with fuel
(the Python loop has no a-priori bound; every theorem that uses it is
conditioned on, or witnesses, successful termination). -/
def drawTarget (M : RNGModel) (n control : ℕ) : ℕ → ℕ → Option (ℕ × ℕ)
  | 0, _ => none
  | fuel + 1, g =>
    if (M.randint g n).1 = control then drawTarget M n control fuel (M.randint g n).2
    else some ((M.randint g n).1, (M.randint g n).2)

/-- The local-gate list built by `make_operations` for one round:
`operations_list` receives `n // 2` copies of H, then `n // 2` copies of X,
then one I when the total is still short of `n` (odd `n`). -/
def svOpsList (n : ℕ) : List Mat :=
  if (List.replicate (n / 2) gateH ++ List.replicate (n / 2) gateX).length < n
  then (List.replicate (n / 2) gateH ++ List.replicate (n / 2) gateX) ++ [gateI]
  else List.replicate (n / 2) gateH ++ List.replicate (n / 2) gateX

/-- `GateSVSimulator.make_operations`: for n < 2 returns `(H, I)`; otherwise
composes the H/X/(I) list via `kronecker_product` and builds a CX gate with
random control and a target redrawn until it differs. -/
def sv_make_operations (M : RNGModel) (sim : Sim) (g : ℕ) (fuel : ℕ) :
    Option (Mat × Mat × Sim × ℕ) :=
  if sim.n < 2 then some (gateH, gateI, sim, g)
  else
    let operations := kronecker_product (svOpsList sim.n)
    let control := (M.randint g sim.n).1
    let g1 := (M.randint g sim.n).2
    match drawTarget M sim.n control fuel g1 with
    | none => none
    | some (target, g2) =>
      match simCX sim control target with
      | Except.error _ => none
      | Except.ok (cxm, sim1) => some (operations, cxm, sim1, g2)

/-- `GateSVSimulator.apply_operations`:
`self.state = CX @ operations @ self.state` (NumPy's left association:
`(CX @ operations) @ state`). -/
def sv_apply_operations (sim : Sim) (operations CXm : Mat) : Sim :=
  { sim with state := matVec (2 ^ sim.n) (matMul (2 ^ sim.n) CXm operations) sim.state }

/-- Replace bit `p` of `x` by `s ∈ {0, 1}`. -/
def writeBit (p s x : ℕ) : ℕ := x % 2 ^ p + s * 2 ^ p + x / 2 ^ (p + 1) * 2 ^ (p + 1)

/-- One local step of the tensor engine:
`np.einsum('a⟨letter of axis ax⟩, ⟨axis letters⟩ -> ⟨output⟩', gate, state)`
contracts the 2×2 gate's second index against axis `ax` of the rank-n state
(axis `ax` is bit `n - 1 - ax` of the flat C-order index), leaving all other
axes unchanged and keeping the axis order. -/
def applyAxis (n ax : ℕ) (gate : Mat) (T : Vec) : Vec :=
  fun x => ∑ s ∈ Finset.range 2,
    gate (bitAt (n - 1 - ax) x) s * T (writeBit (n - 1 - ax) s x)

/-- `GateTensorSimulator.make_operations`: einsum steps applying H to axes
`0 .. n//2 - 1` and X to axes `n//2 .. 2*(n//2) - 1` (read off the generated
einsum index strings), then `operations_list.reverse()`; plus the CX gate
with random control/target as in the dense engine.  For n < 2 the single
step `(H, 'ab', 'a')` (H on axis 0) and `I` in the CX slot are returned. -/
def tensor_make_operations (M : RNGModel) (sim : Sim) (g : ℕ) (fuel : ℕ) :
    Option (List (Mat × ℕ) × Mat × Sim × ℕ) :=
  if sim.n < 2 then some ([(gateH, 0)], gateI, sim, g)
  else
    let steps := (List.range (sim.n / 2)).map (fun i => (gateH, i))
      ++ (List.range (sim.n / 2)).map (fun i => (gateX, i + sim.n / 2))
    let control := (M.randint g sim.n).1
    let g1 := (M.randint g sim.n).2
    match drawTarget M sim.n control fuel g1 with
    | none => none
    | some (target, g2) =>
      match simCX sim control target with
      | Except.error _ => none
      | Except.ok (cxm, sim1) => some (steps.reverse, cxm, sim1, g2)

/-- `GateTensorSimulator.apply_operations`: contract each local step in list
order, then flatten, apply the CX operator as a matrix–vector product, and
reshape (identity on the flat representation). -/
def tensor_apply_operations (sim : Sim) (steps : List (Mat × ℕ)) (CXm : Mat) : Sim :=
  let T := steps.foldl (fun T step => applyAxis sim.n step.2 step.1 T) sim.state
  { sim with state := matVec (2 ^ sim.n) CXm T }

/-! ## Bra-ket rendering, sampling, and constructor validation -/

/-- The float literal `1e-10` interpreted by its nominal value. -/
def threshold : ℚ := 1 / 10 ^ 10

/-- The comparison `amplitude > 1e-10` of `state_to_braket` (the stored
amplitudes are real floats there; the comparison reads the real value). -/
def gtThreshold (x : Amp) : Bool := decide (KPos (x.re1 - threshold) x.reS)

/-- The comparison `amplitude > 0` of the sign test. -/
def gtZero (x : Amp) : Bool := decide (KPos x.re1 x.reS)

/-- Python `abs` on a real amplitude value. -/
def kAbs (x : Amp) : Amp :=
  if KNonneg x.re1 x.reS then Amp.reK x else -(Amp.reK x)

/-- Floor of `a + b·√2`, computed from an integer-square-root candidate
corrected by exact comparisons. -/
def floorK (a b : ℚ) : ℤ :=
  if b = 0 then ⌊a⌋
  else
    let base : ℤ :=
      if 0 ≤ b then ⌊a⌋ + (Nat.sqrt (2 * b ^ 2).floor.toNat : ℤ)
      else ⌊a⌋ - (Nat.sqrt (2 * b ^ 2).ceil.toNat : ℤ) - 2
    if KNonneg (a - ((base + 4 : ℤ) : ℚ)) b then base + 4
    else if KNonneg (a - ((base + 3 : ℤ) : ℚ)) b then base + 3
    else if KNonneg (a - ((base + 2 : ℤ) : ℚ)) b then base + 2
    else if KNonneg (a - ((base + 1 : ℤ) : ℚ)) b then base + 1
    else base

/-- The integer of milli-units printed by `f"{v:.3f}"`: `v·1000` rounded to
the nearest integer (the round-half-even ties of the float format never
arise at the values the theorems evaluate). -/
def m3 (x : Amp) : ℤ := floorK (1000 * x.re1 + 1 / 2) (1000 * x.reS)

/-- Render a nonnegative milli-value as the fixed-point string `d.ddd`. -/
def fmt3 (m : ℤ) : String :=
  let mn := m.toNat
  let fs := toString (mn % 1000)
  toString (mn / 1000) ++ "." ++ String.mk (List.replicate (3 - fs.length) '0') ++ fs

/-- The formatted magnitude field `f"({abs(amplitude):.3f})"`. -/
def fmtMag (x : Amp) : String := "(" ++ fmt3 (m3 (kAbs x)) ++ ")"

/-- The terms emitted by `GateSVSimulator.state_to_braket`: indices `d` with
`state[d] != 0` (from `np.where`) in increasing order, kept only when the
amplitude exceeds `1e-10` (the `else 0` branch drops everything else,
including every negative amplitude). -/
def sv_braket_terms (sim : Sim) : List (ℕ × Amp) :=
  (((List.range (2 ^ sim.n)).filter (fun d => decide (sim.state d ≠ 0))).filter
    (fun d => gtThreshold (sim.state d))).map (fun d => (d, sim.state d))

/-- The string assembly loop shared by both `state_to_braket` overrides: the
first kept term renders as `(mag)|label⟩`, later terms are joined by
`" + "` or `" - "` according to `amplitude > 0`. -/
def braket_assemble (n : ℕ) (terms : List (ℕ × Amp)) : String :=
  terms.foldl
    (fun acc t =>
      if acc = "" then fmtMag t.2 ++ "|" ++ to_bin n t.1 ++ "⟩"
      else acc ++ (if gtZero t.2 then " + " else " - ") ++ fmtMag t.2 ++ "|" ++ to_bin n t.1 ++ "⟩")
    ""

/-- `GateSVSimulator.state_to_braket`. -/
def sv_state_to_braket (sim : Sim) : String :=
  braket_assemble sim.n (sv_braket_terms sim)

/-- The terms of `GateTensorSimulator.state_to_braket`: `np.where(state > 0)`
enumerates the strictly positive entries in C order, and only those above
`1e-10` are kept; the label is the multi-index joined, which is the n-bit
binary of the flat index. -/
def tensor_braket_terms (sim : Sim) : List (ℕ × Amp) :=
  (((List.range (2 ^ sim.n)).filter (fun d => gtZero (sim.state d))).filter
    (fun d => gtThreshold (sim.state d))).map (fun d => (d, sim.state d))

/-- `GateTensorSimulator.state_to_braket`. -/
def tensor_state_to_braket (sim : Sim) : String :=
  braket_assemble sim.n (tensor_braket_terms sim)

/-- `GateSimulator.sample_probability` as dispatched from a
`GateSVSimulator`: gathers `make_operations`, applies them (mutating the
state), re-parses the braket string — the regex `\((.*?)\)` recovers exactly
the formatted magnitude of each emitted term — squares and renormalises, and
draws 1024 samples (the histogram feeds only `plt.bar`; the function returns
`None`).  The returned pair is the mutated simulator and generator state. -/
def sv_sample_probability (M : RNGModel) (sim : Sim) (g : ℕ) (fuel : ℕ) :
    Option (Sim × ℕ) :=
  match sv_make_operations M sim g fuel with
  | none => none
  | some (ops, cxm, sim1, g1) =>
    let sim2 := sv_apply_operations sim1 ops cxm
    let amplitudes := (sv_braket_terms sim2).map (fun t => ((m3 (kAbs t.2) : ℚ)) / 1000)
    let probabilities := amplitudes.map (fun a => a ^ 2)
    let normalised := probabilities.map (fun p => p / probabilities.sum)
    some (sim2, M.sample g1 normalised)

/-- Python values for the dynamically-typed constructor arguments. -/
inductive PyVal
  | int (i : ℤ)
  | float (q : ℚ)
  | str (s : String)
  | pynone
deriving DecidableEq

/-- Python `isinstance(x, int)`. -/
def PyVal.isInt : PyVal → Bool
  | .int _ => true
  | _ => false

/-- Python `isinstance(x, (int, type(None)))`. -/
def PyVal.isIntOrNone : PyVal → Bool
  | .int _ => true
  | .pynone => true
  | _ => false

/-- The validation prefix of `GateSimulator.__init__` (lines 79–87): the only
checks are the two `isinstance` tests; there is no positivity (or any other)
check on the value of `n`, which is stored unchanged on success. -/
def gateSimulator_init_check (n seed : PyVal) : Except String ℤ :=
  if !n.isInt then Except.error "n must be an integer"
  else if !seed.isIntOrNone then Except.error "seed must be an integer"
  else
    match n with
    | .int i => Except.ok i
    | _ => Except.error "n must be an integer"

/-! ## Reduction of `CX` and frame/constructor claims -/

/-- The projector `|0⟩⟨0|` exactly as `CX` builds it:
`initialize_state('0') @ initialize_state('0').T`. -/
def proj0 : Mat := fun i j => buildBasisVec ['0'] i * buildBasisVec ['0'] j

/-- The projector `|1⟩⟨1|` exactly as `CX` builds it. -/
def proj1 : Mat := fun i j => buildBasisVec ['1'] i * buildBasisVec ['1'] j

/-- The matrix returned by `CX` in the in-bounds, `control ≠ target` case. -/
def cxMat (n control target : ℕ) : Mat :=
  kronecker_product ((List.replicate n gateI).set (n - 1 - control) proj0)
  + kronecker_product
      (((List.replicate n gateI).set (n - 1 - control) proj1).set (n - 1 - target) gateX)

theorem simCX_eq (sim : Sim) (control target : ℕ) (hc : control < sim.n)
    (ht : target < sim.n) (hne : control ≠ target) :
    simCX sim control target = Except.ok (cxMat sim.n control target, sim) := by
  unfold simCX
  rw [if_neg (by omega), if_neg hne]
  rfl

theorem simCX_eq_of_eq (sim : Sim) (control : ℕ) (hc : control < sim.n) :
    simCX sim control control
      = Except.ok (kronecker_product (List.replicate sim.n gateI), sim) := by
  unfold simCX
  rw [if_neg (by omega), if_pos rfl]

/-- C10: constructing a controlled-X with in-bounds control and target leaves
the simulator's stored state unchanged — the internal `initialize_state`
calls run with `change` unset, whose store branch keeps `self.state`. -/
theorem c10_cx_preserves_state (sim : Sim) (control target : ℕ) (M : Mat) (sim' : Sim)
    (h : simCX sim control target = Except.ok (M, sim')) : sim'.state = sim.state := by
  by_cases hb : control ≥ sim.n ∨ target ≥ sim.n
  · unfold simCX at h
    rw [if_pos hb] at h
    exact absurd h (by simp)
  · push_neg at hb
    by_cases he : control = target
    · subst he
      rw [simCX_eq_of_eq sim control hb.1] at h
      simp only [Except.ok.injEq, Prod.mk.injEq] at h
      rw [← h.2]
    · rw [simCX_eq sim control target hb.1 hb.2 he] at h
      simp only [Except.ok.injEq, Prod.mk.injEq] at h
      rw [← h.2]

/-- C10 witness at a concrete input. -/
theorem c10_witness :
    ({ n := 2, seed := 7, state := buildBasisVec ['0', '1'] } : Sim).state = buildBasisVec ['0', '1'] := by
  have h := c10_cx_preserves_state { n := 2, seed := 7, state := buildBasisVec ['0', '1'] } 1 0
    (cxMat 2 1 0) { n := 2, seed := 7, state := buildBasisVec ['0', '1'] }
    (simCX_eq _ 1 0 (by norm_num) (by norm_num) (by norm_num))
  exact h

/-- C9 counterexample: qubit count 0 — an integer that is not positive —
passes the constructor's validation, which only performs `isinstance`
checks; the claim that construction fails for every non-positive integer is
false. -/
theorem c9_counterexample :
    gateSimulator_init_check (PyVal.int 0) PyVal.pynone = Except.ok 0 := rfl

/-- C9 amended: the constructor's validation raises `TypeError` exactly when
the qubit count is not an integer (or the seed is neither an integer nor
None); every integer value of `n`, including zero and negative integers, is
accepted and stored unchanged. -/
theorem c9_amended (n seed : PyVal) (hseed : seed.isIntOrNone = true) :
    (∀ i : ℤ, n = PyVal.int i → gateSimulator_init_check n seed = Except.ok i)
    ∧ (n.isInt = false → ∃ e, gateSimulator_init_check n seed = Except.error e) := by
  constructor
  · rintro i rfl
    unfold gateSimulator_init_check
    simp [PyVal.isInt, hseed]
  · intro hn
    unfold gateSimulator_init_check
    simp [hn]

/-- C9 amended, witness at concrete inputs (integer `n = -3` accepted,
string `n` rejected). -/
theorem c9_amended_witness :
    gateSimulator_init_check (PyVal.int (-3)) PyVal.pynone = Except.ok (-3)
    ∧ ∃ e, gateSimulator_init_check (PyVal.str "4") PyVal.pynone = Except.error e :=
  ⟨(c9_amended (PyVal.int (-3)) PyVal.pynone rfl).1 (-3) rfl,
   (c9_amended (PyVal.str "4") PyVal.pynone rfl).2 rfl⟩

/-- C8 counterexample: with `n = 2`, `initialize_state("0")` — a bitstring
whose length differs from the qubit count — does not raise: it returns the
2-dimensional vector `|0⟩`.  The claimed length check does not exist. -/
theorem c8_counterexample :
    initialize_state { n := 2, seed := 1, state := fun _ => 0 } ['0'] false
      = Except.ok (buildBasisVec ['0'], { n := 2, seed := 1, state := fun _ => 0 }) := rfl

/-- C8 amended: `initialize_state` raises iff some character is not '0' or
'1'; the length is never compared with `n`, and every valid bitstring of any
length `k` yields the tensor product of its single-qubit basis vectors left
to right — the basis vector of dimension `2^k` at the bitstring's value. -/
theorem c8_amended (sim : Sim) (bits : List Char) (change : Bool) :
    ((∃ c ∈ bits, c ≠ '0' ∧ c ≠ '1') →
      ∃ e, initialize_state sim bits change = Except.error e)
    ∧ ((∀ c ∈ bits, c = '0' ∨ c = '1') →
      ∃ sim', initialize_state sim bits change
        = Except.ok ((fun i => if i = bitsVal bits then 1 else 0), sim')) := by
  constructor
  · rintro ⟨c, hc, h0, h1⟩
    unfold initialize_state
    rw [if_neg]
    · exact ⟨_, rfl⟩
    · intro hall
      rw [List.all_eq_true] at hall
      have := hall c hc
      simp only [Bool.or_eq_true, beq_iff_eq] at this
      tauto
  · intro hall
    unfold initialize_state
    rw [if_pos]
    · exact ⟨_, by rw [buildBasisVec_eq]⟩
    · rw [List.all_eq_true]
      intro c hc
      have := hall c hc
      simp only [Bool.or_eq_true, beq_iff_eq]
      tauto

/-- C8 amended, witness at concrete inputs: a '2' raises; the valid length-1
string "1" succeeds on a 3-qubit simulator. -/
theorem c8_amended_witness :
    (∃ e, initialize_state { n := 3, seed := 0, state := fun _ => 0 } ['2'] false
      = Except.error e)
    ∧ ∃ sim', initialize_state { n := 3, seed := 0, state := fun _ => 0 } ['1'] false
      = Except.ok ((fun i => if i = bitsVal ['1'] then 1 else 0), sim') :=
  ⟨(c8_amended _ ['2'] false).1 ⟨'2', by simp, by simp, by simp⟩,
   (c8_amended _ ['1'] false).2 (by intro c hc; simp at hc; simp [hc])⟩

/-- C7 amended: for every nonzero integer seed, construction is a function of
the parameters alone — the ambient generator state is irrelevant, because
`np.random.seed(self.seed)` replaces it with a state determined by the seed.
Two instances built with identical parameters therefore agree in every
attribute and in the generator state, so all subsequent (deterministic)
operations give identical results on both.  At seed 0 this fails (Python
truthiness sends 0 to the random-seed branch). -/
theorem c7_amended (M : RNGModel) (n : ℕ) (st : Option (List Char)) (s : ℤ)
    (hs : s ≠ 0) (g g' : ℕ) :
    svInit M n st (some s) g = svInit M n st (some s) g'
    ∧ tensorInit M n st (some s) g = tensorInit M n st (some s) g' := by
  refine ⟨?_, ?_⟩
  · unfold svInit gateSimulator_init_seed
    simp [hs]
  · unfold tensorInit gateSimulator_init_seed
    simp [hs]

/-- C7 amended, witness at a concrete input. -/
theorem c7_amended_witness :
    svInit lcg 2 none (some 5) 0 = svInit lcg 2 none (some 5) 99
    ∧ tensorInit lcg 2 none (some 5) 0 = tensorInit lcg 2 none (some 5) 99 :=
  c7_amended lcg 2 none 5 (by norm_num) 0 99

/-- C7 counterexample: with the integer seed 0 the stored seed is drawn from
the ambient generator state (Python's `seed if seed else ...` treats 0 as
falsy), so two identically-parametrised instances need not agree: under the
concrete generator model they store different seeds. -/
theorem c7_counterexample :
    (svInit lcg 1 (some ['0']) (some 0) 0).toOption.map (fun r => r.1.seed)
      ≠ (svInit lcg 1 (some ['0']) (some 0) 5).toOption.map (fun r => r.1.seed) := by
  decide

/-! ## Closed form of the controlled-X operator -/

theorem getD_set_replicate {α : Type} (n p k : ℕ) (x y : α) (hk : k < n) :
    ((List.replicate n x).set p y).getD k x = if p = k then y else x := by
  have hlen : k < ((List.replicate n x).set p y).length := by
    simpa using hk
  rw [List.getD_eq_getElem _ _ hlen, List.getElem_set]
  split
  · rfl
  · exact List.getElem_replicate x _

theorem getD_set2_replicate {α : Type} (n p1 p2 k : ℕ) (x y1 y2 : α) (hk : k < n) :
    (((List.replicate n x).set p1 y1).set p2 y2).getD k x
      = if p2 = k then y2 else if p1 = k then y1 else x := by
  have hlen : k < (((List.replicate n x).set p1 y1).set p2 y2).length := by
    simpa using hk
  rw [List.getD_eq_getElem _ _ hlen, List.getElem_set]
  split
  · rfl
  · rw [List.getElem_set]
    split
    · rfl
    · exact List.getElem_replicate x _

theorem gateX_entry (a b : ℕ) (ha : a < 2) (hb : b < 2) :
    gateX a b = if a = b then 0 else 1 := by
  interval_cases a <;> interval_cases b <;> simp [gateX]

theorem proj0_entry (a b : ℕ) :
    proj0 a b = if a = 0 ∧ b = 0 then 1 else 0 := by
  unfold proj0
  rw [buildBasisVec_eq]
  by_cases h1 : a = 0 <;> by_cases h2 : b = 0 <;> simp [h1, h2, bitsVal]

theorem proj1_entry (a b : ℕ) :
    proj1 a b = if a = 1 ∧ b = 1 then 1 else 0 := by
  unfold proj1
  rw [buildBasisVec_eq]
  by_cases h1 : a = 1 <;> by_cases h2 : b = 1 <;> simp [h1, h2, bitsVal]

theorem bitAt_xor_ne (q t j : ℕ) (h : q ≠ t) : bitAt q (j ^^^ 2 ^ t) = bitAt q j := by
  rw [bitAt_testBit, bitAt_testBit, Nat.testBit_xor,
    Nat.testBit_two_pow_of_ne (fun ht => h ht.symm)]
  simp

theorem bitAt_xor_self (t j : ℕ) : bitAt t (j ^^^ 2 ^ t) = 1 - bitAt t j := by
  rw [bitAt_testBit, bitAt_testBit, Nat.testBit_xor, Nat.testBit_two_pow_self]
  by_cases h : j.testBit t <;> simp [h]

/-- Entry closed form of the CX matrix (in-bounds, `control ≠ target`):
column `j` is the basis vector at `j` when bit `control` of `j` is 0 and at
`j ^^^ 2^target` (the target bit flipped) when it is 1. -/
theorem cxMat_entry (n control target i j : ℕ) (hc : control < n) (ht : target < n)
    (hne : control ≠ target) (hi : i < 2 ^ n) (hj : j < 2 ^ n) :
    cxMat n control target i j
      = if i = (if bitAt control j = 1 then j ^^^ 2 ^ target else j) then 1 else 0 := by
  have hxlt : j ^^^ 2 ^ target < 2 ^ n :=
    Nat.xor_lt_two_pow hj (Nat.pow_lt_pow_right (by norm_num) ht)
  have hz : kronecker_product ((List.replicate n gateI).set (n - 1 - control) proj0) i j
      = (if bitAt control i = 0 ∧ bitAt control j = 0 then 1 else 0)
        * (if ∀ q ∈ (Finset.range n).erase control, bitAt q i = bitAt q j then 1 else 0) := by
    rw [kronecker_product_entry_bits _ n (by simp) i j hi hj]
    rw [← Finset.mul_prod_erase _ _ (Finset.mem_range.mpr hc)]
    congr 1
    · rw [getD_set_replicate n (n - 1 - control) (n - 1 - control) gateI proj0 (by omega),
        if_pos rfl, proj0_entry]
    · have hstep : ∀ q ∈ (Finset.range n).erase control,
          ((List.replicate n gateI).set (n - 1 - control) proj0).getD (n - 1 - q) gateI
              (bitAt q i) (bitAt q j)
            = if bitAt q i = bitAt q j then 1 else 0 := by
        intro q hq
        rw [Finset.mem_erase] at hq
        have hq2 := Finset.mem_range.mp hq.2
        have hq1 := hq.1
        rw [getD_set_replicate n (n - 1 - control) (n - 1 - q) gateI proj0 (by omega),
          if_neg (by omega), gateI_entry _ _ (bitAt_lt_two q i) (bitAt_lt_two q j)]
      rw [Finset.prod_congr rfl hstep, Finset.prod_boole]
  have ho : kronecker_product
        (((List.replicate n gateI).set (n - 1 - control) proj1).set (n - 1 - target) gateX) i j
      = (if bitAt control i = 1 ∧ bitAt control j = 1 then 1 else 0)
        * ((if bitAt target i = bitAt target j then 0 else 1)
          * (if ∀ q ∈ ((Finset.range n).erase control).erase target,
                bitAt q i = bitAt q j then 1 else 0)) := by
    rw [kronecker_product_entry_bits _ n (by simp) i j hi hj]
    rw [← Finset.mul_prod_erase _ _ (Finset.mem_range.mpr hc)]
    rw [← Finset.mul_prod_erase _ _
      (Finset.mem_erase.mpr ⟨Ne.symm hne, Finset.mem_range.mpr ht⟩)]
    congr 1
    · rw [getD_set2_replicate n (n - 1 - control) (n - 1 - target) (n - 1 - control)
        gateI proj1 gateX (by omega), if_neg (by omega), if_pos rfl, proj1_entry]
    congr 1
    · rw [getD_set2_replicate n (n - 1 - control) (n - 1 - target) (n - 1 - target)
        gateI proj1 gateX (by omega), if_pos rfl,
        gateX_entry _ _ (bitAt_lt_two target i) (bitAt_lt_two target j)]
    · have hstep : ∀ q ∈ ((Finset.range n).erase control).erase target,
          (((List.replicate n gateI).set (n - 1 - control) proj1).set
              (n - 1 - target) gateX).getD (n - 1 - q) gateI (bitAt q i) (bitAt q j)
            = if bitAt q i = bitAt q j then 1 else 0 := by
        intro q hq
        rw [Finset.mem_erase] at hq
        have hqt := hq.1
        rw [Finset.mem_erase] at hq
        have hqc := hq.2.1
        have hq2 := Finset.mem_range.mp hq.2.2
        rw [getD_set2_replicate n (n - 1 - control) (n - 1 - target) (n - 1 - q)
          gateI proj1 gateX (by omega), if_neg (by omega), if_neg (by omega),
          gateI_entry _ _ (bitAt_lt_two q i) (bitAt_lt_two q j)]
      rw [Finset.prod_congr rfl hstep, Finset.prod_boole]
  show kronecker_product _ i j + kronecker_product _ i j = _
  rw [hz, ho]
  have hci := bitAt_lt_two control i
  have hcj2 := bitAt_lt_two control j
  have hti := bitAt_lt_two target i
  have htj := bitAt_lt_two target j
  by_cases hcj : bitAt control j = 1
  · rw [if_pos hcj, if_neg (by omega : ¬(bitAt control i = 0 ∧ bitAt control j = 0)), zero_mul,
      zero_add]
    by_cases hij : i = j ^^^ 2 ^ target
    · rw [if_pos hij]
      subst hij
      have e1 : bitAt control (j ^^^ 2 ^ target) = 1 := by
        rw [bitAt_xor_ne control target j hne]; exact hcj
      have e2 : bitAt target (j ^^^ 2 ^ target) = 1 - bitAt target j := bitAt_xor_self target j
      rw [if_pos ⟨e1, hcj⟩, if_neg (by omega), if_pos]
      · norm_num
      · intro q hq
        rw [Finset.mem_erase] at hq
        exact bitAt_xor_ne q target j hq.1
    · rw [if_neg hij]
      by_cases h1 : bitAt control i = 1 ∧ bitAt control j = 1
      · by_cases h2 : bitAt target i = bitAt target j
        · rw [if_pos h2, zero_mul, mul_zero]
        · have hn3 : ¬(∀ q ∈ ((Finset.range n).erase control).erase target,
              bitAt q i = bitAt q j) := by
            intro h3
            apply hij
            apply eq_of_bits_eq hi hxlt
            intro q hq
            by_cases hqt : q = target
            · subst hqt
              rw [bitAt_xor_self]
              omega
            · rw [bitAt_xor_ne q target j hqt]
              by_cases hqc : q = control
              · subst hqc; omega
              · exact h3 q (Finset.mem_erase.mpr ⟨hqt,
                  Finset.mem_erase.mpr ⟨hqc, Finset.mem_range.mpr hq⟩⟩)
          rw [if_neg hn3, mul_zero, mul_zero]
      · rw [if_neg h1, zero_mul]
  · have hcj0 : bitAt control j = 0 := by omega
    rw [if_neg hcj, if_neg (by omega : ¬(bitAt control i = 1 ∧ bitAt control j = 1)), zero_mul,
      add_zero]
    by_cases hij : i = j
    · subst hij
      rw [if_pos rfl, if_pos ⟨hcj0, hcj0⟩, if_pos (fun q _ => rfl), one_mul]
    · rw [if_neg hij]
      by_cases h1 : bitAt control i = 0 ∧ bitAt control j = 0
      · have hn3 : ¬(∀ q ∈ (Finset.range n).erase control, bitAt q i = bitAt q j) := by
          intro h3
          apply hij
          apply eq_of_bits_eq hi hj
          intro q hq
          by_cases hqc : q = control
          · subst hqc; omega
          · exact h3 q (Finset.mem_erase.mpr ⟨hqc, Finset.mem_range.mpr hq⟩)
        rw [if_neg hn3, mul_zero]
      · rw [if_neg h1, zero_mul]

theorem matVec_basis (m : ℕ) (A : Mat) (j : ℕ) (hj : j < m) (i : ℕ) :
    matVec m A (fun k => if k = j then 1 else 0) i = A i j := by
  unfold matVec
  rw [Finset.sum_congr rfl (fun k _ => by rw [mul_ite, mul_one, mul_zero]),
    Finset.sum_ite_eq' (Finset.range m) j (fun k => A i k),
    if_pos (Finset.mem_range.mpr hj)]

/-- C3: the controlled-X operator acts correctly on every computational basis
state.  With in-bounds `control ≠ target` (hence n ≥ 2): a basis state whose
control bit is 0 is mapped to itself, and one whose control bit is 1 is
mapped to the basis state with exactly the target bit flipped and all other
bits unchanged.  With `control = target` (including n = 1,
control = target = 0) the returned operator is the full n-fold identity on
all 2^n × 2^n entries. -/
theorem c3_cx_correct (sim : Sim) (control target : ℕ)
    (hc : control < sim.n) (ht : target < sim.n) :
    (control ≠ target → ∀ M sim', simCX sim control target = Except.ok (M, sim') →
      ∀ j < 2 ^ sim.n,
        (bitAt control j = 0 → ∀ i < 2 ^ sim.n,
          matVec (2 ^ sim.n) M (fun k => if k = j then 1 else 0) i
            = if i = j then 1 else 0)
        ∧ (bitAt control j = 1 → ∃ j', j' < 2 ^ sim.n
            ∧ bitAt target j' = 1 - bitAt target j
            ∧ (∀ q, q ≠ target → bitAt q j' = bitAt q j)
            ∧ ∀ i < 2 ^ sim.n,
              matVec (2 ^ sim.n) M (fun k => if k = j then 1 else 0) i
                = if i = j' then 1 else 0))
    ∧ (control = target → ∀ M sim', simCX sim control target = Except.ok (M, sim') →
        ∀ i < 2 ^ sim.n, ∀ k < 2 ^ sim.n, M i k = if i = k then 1 else 0) := by
  constructor
  · intro hne M sim' hok j hj
    rw [simCX_eq sim control target hc ht hne] at hok
    simp only [Except.ok.injEq, Prod.mk.injEq] at hok
    obtain ⟨hM, -⟩ := hok
    subst hM
    constructor
    · intro hcj0 i hi
      have hred : (if bitAt control j = 1 then j ^^^ 2 ^ target else j) = j :=
        if_neg (by omega)
      rw [matVec_basis _ _ j hj i,
        cxMat_entry sim.n control target i j hc ht hne hi hj, hred]
    · intro hcj1
      refine ⟨j ^^^ 2 ^ target,
        Nat.xor_lt_two_pow hj (Nat.pow_lt_pow_right (by norm_num) ht),
        bitAt_xor_self target j, fun q hq => bitAt_xor_ne q target j hq, ?_⟩
      intro i hi
      rw [matVec_basis _ _ j hj i,
        cxMat_entry sim.n control target i j hc ht hne hi hj, if_pos hcj1]
  · rintro rfl M sim' hok i hi k hk
    rw [simCX_eq_of_eq sim control hc] at hok
    simp only [Except.ok.injEq, Prod.mk.injEq] at hok
    rw [← hok.1]
    exact kronecker_product_replicate_I sim.n i k hi hk

/-- C3 witness at a concrete input: n = 2, control = 1, target = 0, basis
state |01⟩ (index 1, control bit 0) is fixed by the CX operator. -/
theorem c3_witness :
    matVec 4 (cxMat 2 1 0) (fun k => if k = 1 then 1 else 0) 1 = 1 := by
  have h := ((c3_cx_correct ⟨2, 0, fun _ => 0⟩ 1 0 (by norm_num) (by norm_num)).1
    (by norm_num) (cxMat 2 1 0) ⟨2, 0, fun _ => 0⟩
    (simCX_eq ⟨2, 0, fun _ => 0⟩ 1 0 (by norm_num) (by norm_num) (by norm_num))
    1 (by norm_num)).1 (by decide) 1 (by norm_num)
  exact h

/-! ## Sampling is not read-only (C2) -/

/-- C2 amended: `sample_probability` is not read-only — it begins by applying
one full round (`make_operations` then `apply_operations`), mutating the
stored state; the sampling stage itself performs no further state change, so
the post-call state is exactly the one-round state (and the generator state
advances). -/
theorem c2_amended (M : RNGModel) (sim : Sim) (g fuel : ℕ) (ops cxm : Mat)
    (sim1 : Sim) (g1 : ℕ)
    (h : sv_make_operations M sim g fuel = some (ops, cxm, sim1, g1)) :
    ∃ g2, sv_sample_probability M sim g fuel
      = some (sv_apply_operations sim1 ops cxm, g2) := by
  unfold sv_sample_probability
  rw [h]
  exact ⟨_, rfl⟩

/-- C2 amended, witness at a concrete input (n = 1, where `make_operations`
returns `(H, I)` without consuming randomness). -/
theorem c2_amended_witness :
    ∃ g2, sv_sample_probability lcg ⟨1, 5, buildBasisVec ['0']⟩ 0 3
      = some (sv_apply_operations ⟨1, 5, buildBasisVec ['0']⟩ gateH gateI, g2) :=
  c2_amended lcg ⟨1, 5, buildBasisVec ['0']⟩ 0 3 gateH gateI ⟨1, 5, buildBasisVec ['0']⟩ 0 rfl

/-- C2 counterexample: on a 1-qubit simulator in state |0⟩,
`sample_probability` changes the state (the amplitude at index 1 goes from 0
to 1/√2), refuting the claim that it leaves the simulator unchanged. -/
theorem c2_counterexample :
    (sv_sample_probability lcg ⟨1, 5, buildBasisVec ['0']⟩ 0 3).map (fun r => r.1.state 1)
      ≠ some (buildBasisVec ['0'] 1) := by
  show some ((sv_apply_operations ⟨1, 5, buildBasisVec ['0']⟩ gateH gateI).state 1)
    ≠ some (buildBasisVec ['0'] 1)
  intro hcon
  have h1 : (sv_apply_operations ⟨1, 5, buildBasisVec ['0']⟩ gateH gateI).state 1
      = buildBasisVec ['0'] 1 := Option.some.inj hcon
  have hL : (sv_apply_operations ⟨1, 5, buildBasisVec ['0']⟩ gateH gateI).state 1 = hAmp := by
    show matVec (2 ^ (1:ℕ)) (matMul (2 ^ (1:ℕ)) gateI gateH) (buildBasisVec ['0']) 1 = hAmp
    rw [buildBasisVec_eq]
    simp only [matVec, matMul, pow_one, Finset.sum_range_succ, Finset.sum_range_zero,
      gateI, gateH, bitsVal]
    norm_num
    apply Amp.ext_comp <;> simp [hAmp]
  have hR : buildBasisVec ['0'] 1 = 0 := by
    rw [buildBasisVec_eq]
    simp [bitsVal]
  rw [hL, hR] at h1
  have h2 := congrArg Amp.reS h1
  simp [hAmp] at h2

/-! ## Normalization machinery (C4) -/

/-- Sum of squared amplitude magnitudes over the first `m` entries. -/
def sumNormSq (m : ℕ) (v : Vec) : Amp := ∑ i ∈ Finset.range m, (v i).normSq

theorem normSq_zero : (0 : Amp).normSq = 0 := by
  apply Amp.ext_comp <;> simp [Amp.normSq, Amp.conj]

theorem normSq_one : (1 : Amp).normSq = 1 := by
  apply Amp.ext_comp <;> simp [Amp.normSq, Amp.conj]

/-- Any basis vector has squared norm exactly 1. -/
theorem sumNormSq_basis (m d : ℕ) (hd : d < m) :
    sumNormSq m (fun i => if i = d then 1 else 0) = 1 := by
  unfold sumNormSq
  have hterm : ∀ i ∈ Finset.range m,
      (if i = d then (1:Amp) else 0).normSq = if i = d then (1:Amp) else 0 := by
    intro i _
    by_cases h : i = d
    · rw [if_pos h]
      exact normSq_one
    · rw [if_neg h]
      exact normSq_zero
  rw [Finset.sum_congr rfl hterm,
    Finset.sum_ite_eq' (Finset.range m) d (fun _ => (1:Amp)),
    if_pos (Finset.mem_range.mpr hd)]

/-- Splitting a sum over `range (a * b)` along `x = y + z * a`. -/
theorem sum_range_mul_split (a b : ℕ) (f : ℕ → Amp) :
    ∑ x ∈ Finset.range (a * b), f x
      = ∑ z ∈ Finset.range b, ∑ y ∈ Finset.range a, f (y + z * a) := by
  induction b with
  | zero => simp
  | succ b ih =>
    have h2 : a * (b + 1) = a * b + a := by ring
    rw [h2, Finset.sum_range_add, ih, Finset.sum_range_succ]
    congr 1
    apply Finset.sum_congr rfl
    intro y _
    congr 1
    ring

theorem sum_range_two_mul (m : ℕ) (f : ℕ → Amp) :
    ∑ x ∈ Finset.range (2 * m), f x
      = ∑ p ∈ Finset.range m, (f (2 * p) + f (2 * p + 1)) := by
  rw [sum_range_mul_split 2 m f]
  apply Finset.sum_congr rfl
  intro p _
  rw [Finset.sum_range_succ, Finset.sum_range_succ, Finset.sum_range_zero, zero_add]
  congr 2 <;> omega

theorem matVec_matMul (m : ℕ) (A B : Mat) (v : Vec) (i : ℕ) :
    matVec m (matMul m A B) v i = matVec m A (matVec m B v) i := by
  unfold matVec matMul
  have h1 : ∀ j ∈ Finset.range m,
      (∑ k ∈ Finset.range m, A i k * B k j) * v j
        = ∑ k ∈ Finset.range m, A i k * (B k j * v j) := by
    intro j _
    rw [Finset.sum_mul]
    apply Finset.sum_congr rfl
    intro k _
    ring
  rw [Finset.sum_congr rfl h1, Finset.sum_comm]
  apply Finset.sum_congr rfl
  intro k _
  rw [Finset.mul_sum]

/-- A 2×2 matrix preserves the two-entry squared norm. -/
def NormPres2 (Mg : Mat) : Prop :=
  ∀ v : Vec, sumNormSq 2 (matVec 2 Mg v) = sumNormSq 2 v

theorem gateI_normPres : NormPres2 gateI := by
  intro v
  unfold sumNormSq matVec
  simp only [Finset.sum_range_succ, Finset.sum_range_zero, gateI]
  norm_num

theorem gateX_normPres : NormPres2 gateX := by
  intro v
  unfold sumNormSq matVec
  simp only [Finset.sum_range_succ, Finset.sum_range_zero, gateX]
  norm_num
  ring

theorem gateH_normPres : NormPres2 gateH := by
  intro v
  unfold sumNormSq matVec
  simp only [Finset.sum_range_succ, Finset.sum_range_zero, gateH]
  norm_num
  generalize v 0 = x
  generalize v 1 = y
  obtain ⟨a, b, c, d⟩ := x
  obtain ⟨e, f, g, h⟩ := y
  apply Amp.ext_comp <;> simp [Amp.normSq, Amp.conj, hAmp] <;> ring

theorem matVec_kron (n : ℕ) (A M : Mat) (v : Vec) (i : ℕ) :
    matVec (2 ^ (n + 1)) (kron 2 2 A M) v i
      = matVec (2 ^ n) A
          (fun p => matVec 2 M (fun s => v (2 * p + s)) (i % 2)) (i / 2) := by
  unfold matVec kron
  rw [show (2:ℕ) ^ (n + 1) = 2 * 2 ^ n from by rw [pow_succ'], sum_range_two_mul]
  apply Finset.sum_congr rfl
  intro p _
  show A (i / 2) (2 * p / 2) * M (i % 2) (2 * p % 2) * v (2 * p)
      + A (i / 2) ((2 * p + 1) / 2) * M (i % 2) ((2 * p + 1) % 2) * v (2 * p + 1)
    = A (i / 2) p * ∑ j ∈ Finset.range 2, M (i % 2) j * v (2 * p + j)
  rw [Finset.sum_range_succ, Finset.sum_range_succ, Finset.sum_range_zero]
  have e1 : 2 * p / 2 = p := by omega
  have e2 : 2 * p % 2 = 0 := by omega
  have e3 : (2 * p + 1) / 2 = p := by omega
  have e4 : (2 * p + 1) % 2 = 1 := by omega
  rw [e1, e2, e3, e4]
  have e5 : 2 * p + 0 = 2 * p := by omega
  rw [e5]
  ring

/-- The fold of `np.kron` over a list of norm-preserving 2×2 matrices
preserves the squared norm of every vector. -/
theorem kron_fold_norm : ∀ ms : List Mat, (∀ Mg ∈ ms, NormPres2 Mg) →
    ∀ v : Vec, sumNormSq (2 ^ ms.length) (matVec (2 ^ ms.length) (kronecker_product ms) v)
      = sumNormSq (2 ^ ms.length) v := by
  intro ms
  induction ms using List.reverseRecOn with
  | nil =>
    intro _ v
    unfold sumNormSq matVec kronecker_product
    simp [matOne]
  | append_singleton ms M ih =>
    intro hms v
    have hM : NormPres2 M := hms M (by simp)
    have hms' : ∀ Mg ∈ ms, NormPres2 Mg := fun Mg h => hms Mg (by simp [h])
    have hpow : (2:ℕ) ^ (ms.length + 1) = 2 * 2 ^ ms.length := by rw [pow_succ']
    have hlen : (ms ++ [M]).length = ms.length + 1 := by simp
    rw [hlen, kronecker_product_append, hpow]
    unfold sumNormSq
    rw [sum_range_two_mul, sum_range_two_mul]
    have hstep : ∀ p ∈ Finset.range (2 ^ ms.length),
        (matVec (2 * 2 ^ ms.length) (kron 2 2 (kronecker_product ms) M) v (2 * p)).normSq
          + (matVec (2 * 2 ^ ms.length) (kron 2 2 (kronecker_product ms) M) v (2 * p + 1)).normSq
        = (matVec (2 ^ ms.length) (kronecker_product ms)
            (fun q => matVec 2 M (fun s => v (2 * q + s)) 0) p).normSq
          + (matVec (2 ^ ms.length) (kronecker_product ms)
              (fun q => matVec 2 M (fun s => v (2 * q + s)) 1) p).normSq := by
      intro p _
      have h0 := matVec_kron ms.length (kronecker_product ms) M v (2 * p)
      have h1 := matVec_kron ms.length (kronecker_product ms) M v (2 * p + 1)
      rw [hpow] at h0 h1
      simp only [show 2 * p % 2 = 0 from by omega, show 2 * p / 2 = p from by omega,
        show (2 * p + 1) % 2 = 1 from by omega, show (2 * p + 1) / 2 = p from by omega] at h0 h1
      rw [h0, h1]
    rw [Finset.sum_congr rfl hstep, Finset.sum_add_distrib]
    have hihL := ih hms' (fun q => matVec 2 M (fun s => v (2 * q + s)) 0)
    have hihR := ih hms' (fun q => matVec 2 M (fun s => v (2 * q + s)) 1)
    unfold sumNormSq at hihL hihR
    rw [hihL, hihR, ← Finset.sum_add_distrib]
    apply Finset.sum_congr rfl
    intro p _
    show (matVec 2 M (fun s => v (2 * p + s)) 0).normSq
        + (matVec 2 M (fun s => v (2 * p + s)) 1).normSq
      = (v (2 * p)).normSq + (v (2 * p + 1)).normSq
    have hMp := hM (fun s => v (2 * p + s))
    unfold sumNormSq at hMp
    rw [Finset.sum_range_succ, Finset.sum_range_succ, Finset.sum_range_zero, zero_add,
      Finset.sum_range_succ, Finset.sum_range_succ, Finset.sum_range_zero, zero_add] at hMp
    rw [hMp]
    norm_num

/-- The basis permutation the CX operator implements: flip bit `target` iff
bit `control` is set. -/
def cxAct (control target j : ℕ) : ℕ :=
  if bitAt control j = 1 then j ^^^ 2 ^ target else j

theorem cxAct_invol (control target j : ℕ) (hne : control ≠ target) :
    cxAct control target (cxAct control target j) = j := by
  unfold cxAct
  by_cases h : bitAt control j = 1
  · rw [if_pos h, if_pos (by rw [bitAt_xor_ne control target j hne]; exact h),
      Nat.xor_cancel_right]
  · rw [if_neg h, if_neg h]

theorem cxAct_lt (n control target j : ℕ) (ht : target < n) (hj : j < 2 ^ n) :
    cxAct control target j < 2 ^ n := by
  unfold cxAct
  split
  · exact Nat.xor_lt_two_pow hj (Nat.pow_lt_pow_right (by norm_num) ht)
  · exact hj

theorem cxMat_apply (n control target : ℕ) (hc : control < n) (ht : target < n)
    (hne : control ≠ target) (v : Vec) (i : ℕ) (hi : i < 2 ^ n) :
    matVec (2 ^ n) (cxMat n control target) v i = v (cxAct control target i) := by
  unfold matVec
  have hterm : ∀ j ∈ Finset.range (2 ^ n),
      cxMat n control target i j * v j
        = if j = cxAct control target i then v j else 0 := by
    intro j hj
    rw [Finset.mem_range] at hj
    rw [cxMat_entry n control target i j hc ht hne hi hj]
    show (if i = cxAct control target j then (1:Amp) else 0) * v j = _
    by_cases h : j = cxAct control target i
    · rw [if_pos h, if_pos, one_mul]
      rw [h, cxAct_invol control target i hne]
    · rw [if_neg h, if_neg, zero_mul]
      intro hcon
      apply h
      rw [hcon, cxAct_invol control target j hne]
  rw [Finset.sum_congr rfl hterm,
    Finset.sum_ite_eq' (Finset.range (2 ^ n)) (cxAct control target i) v,
    if_pos (Finset.mem_range.mpr (cxAct_lt n control target i ht hi))]

theorem cxMat_norm (n control target : ℕ) (hc : control < n) (ht : target < n)
    (hne : control ≠ target) (v : Vec) :
    sumNormSq (2 ^ n) (matVec (2 ^ n) (cxMat n control target) v)
      = sumNormSq (2 ^ n) v := by
  unfold sumNormSq
  rw [Finset.sum_congr rfl (fun i hi => by
    rw [cxMat_apply n control target hc ht hne v i (Finset.mem_range.mp hi)])]
  exact Finset.sum_nbij' (fun i => cxAct control target i) (fun i => cxAct control target i)
    (fun a ha => Finset.mem_range.mpr
      (cxAct_lt n control target a ht (Finset.mem_range.mp ha)))
    (fun a ha => Finset.mem_range.mpr
      (cxAct_lt n control target a ht (Finset.mem_range.mp ha)))
    (fun a _ => cxAct_invol control target a hne)
    (fun a _ => cxAct_invol control target a hne)
    (fun a _ => rfl)

theorem drawTarget_spec (M : RNGModel) (n control : ℕ) (hn : 0 < n) :
    ∀ fuel g t g2, drawTarget M n control fuel g = some (t, g2) →
      t < n ∧ t ≠ control := by
  intro fuel
  induction fuel with
  | zero =>
    intro g t g2 h
    exact absurd h (by simp [drawTarget])
  | succ fuel ih =>
    intro g t g2 h
    unfold drawTarget at h
    by_cases he : (M.randint g n).1 = control
    · rw [if_pos he] at h
      exact ih _ t g2 h
    · rw [if_neg he] at h
      simp only [Option.some.injEq, Prod.mk.injEq] at h
      rw [← h.1]
      exact ⟨M.randint_lt g n hn, he⟩

theorem sum_range_bit_split (n p : ℕ) (hp : p < n) (f : ℕ → Amp) :
    ∑ x ∈ Finset.range (2 ^ n), f x
      = ∑ z ∈ Finset.range (2 ^ (n - p - 1)), ∑ s ∈ Finset.range 2,
          ∑ y ∈ Finset.range (2 ^ p), f (y + s * 2 ^ p + z * 2 ^ (p + 1)) := by
  have hsz : (2:ℕ) ^ n = 2 ^ (p + 1) * 2 ^ (n - p - 1) := by
    rw [← pow_add]
    congr 1
    omega
  rw [hsz, sum_range_mul_split]
  apply Finset.sum_congr rfl
  intro z _
  have h2 : (2:ℕ) ^ (p + 1) = 2 ^ p * 2 := by rw [pow_succ]
  rw [h2, sum_range_mul_split (2 ^ p) 2]

theorem bit_decomp_bitAt (p y s z : ℕ) (hy : y < 2 ^ p) (hs : s < 2) :
    bitAt p (y + s * 2 ^ p + z * 2 ^ (p + 1)) = s := by
  unfold bitAt
  have h1 : y + s * 2 ^ p + z * 2 ^ (p + 1) = y + (s + 2 * z) * 2 ^ p := by
    rw [pow_succ]
    ring
  rw [h1, Nat.add_mul_div_right _ _ (pow_pos (by norm_num) p), Nat.div_eq_of_lt hy]
  omega

theorem bit_decomp_writeBit (p y s s' z : ℕ) (hy : y < 2 ^ p) (hs : s < 2) :
    writeBit p s' (y + s * 2 ^ p + z * 2 ^ (p + 1)) = y + s' * 2 ^ p + z * 2 ^ (p + 1) := by
  unfold writeBit
  have hmod : (y + s * 2 ^ p + z * 2 ^ (p + 1)) % 2 ^ p = y := by
    have h1 : y + s * 2 ^ p + z * 2 ^ (p + 1) = y + (s + 2 * z) * 2 ^ p := by
      rw [pow_succ]
      ring
    rw [h1, Nat.add_mul_mod_self_right, Nat.mod_eq_of_lt hy]
  have hbound : y + s * 2 ^ p < 2 ^ (p + 1) := by
    have hs' : s * 2 ^ p <= 2 ^ p := by
      calc s * 2 ^ p <= 1 * 2 ^ p := Nat.mul_le_mul_right _ (by omega)
        _ = 2 ^ p := one_mul _
    rw [pow_succ]
    omega
  have hdiv : (y + s * 2 ^ p + z * 2 ^ (p + 1)) / 2 ^ (p + 1) = z := by
    rw [Nat.add_mul_div_right _ _ (pow_pos (by norm_num) (p + 1)), Nat.div_eq_of_lt hbound]
    omega
  rw [hmod, hdiv]

theorem applyBit_norm (n p : ℕ) (hp : p < n) (Mg : Mat) (hMg : NormPres2 Mg) (T : Vec) :
    (∑ x ∈ Finset.range (2 ^ n),
        (∑ s' ∈ Finset.range 2, Mg (bitAt p x) s' * T (writeBit p s' x)).normSq)
      = sumNormSq (2 ^ n) T := by
  unfold sumNormSq
  rw [sum_range_bit_split n p hp, sum_range_bit_split n p hp]
  apply Finset.sum_congr rfl
  intro z _
  conv_lhs => rw [Finset.sum_comm]
  conv_rhs => rw [Finset.sum_comm]
  apply Finset.sum_congr rfl
  intro y hy
  rw [Finset.mem_range] at hy
  have hform : ∀ s ∈ Finset.range 2,
      (∑ s' ∈ Finset.range 2, Mg (bitAt p (y + s * 2 ^ p + z * 2 ^ (p + 1))) s'
          * T (writeBit p s' (y + s * 2 ^ p + z * 2 ^ (p + 1)))).normSq
        = (matVec 2 Mg (fun s' => T (y + s' * 2 ^ p + z * 2 ^ (p + 1))) s).normSq := by
    intro s hs
    rw [Finset.mem_range] at hs
    congr 1
    unfold matVec
    apply Finset.sum_congr rfl
    intro s' _
    rw [bit_decomp_bitAt p y s z hy hs, bit_decomp_writeBit p y s s' z hy hs]
  rw [Finset.sum_congr rfl hform]
  have h2 := hMg (fun s' => T (y + s' * 2 ^ p + z * 2 ^ (p + 1)))
  unfold sumNormSq at h2
  rw [h2]

/-- One axis contraction with a norm-preserving 2×2 gate preserves the
squared norm of the rank-n state. -/
theorem applyAxis_norm (n ax : ℕ) (hax : ax < n) (Mg : Mat) (hMg : NormPres2 Mg)
    (T : Vec) : sumNormSq (2 ^ n) (applyAxis n ax Mg T) = sumNormSq (2 ^ n) T := by
  unfold sumNormSq applyAxis
  exact applyBit_norm n (n - 1 - ax) (by omega) Mg hMg T

theorem foldl_applyAxis_norm (n : ℕ) (steps : List (Mat × ℕ))
    (hsteps : ∀ st ∈ steps, NormPres2 st.1 ∧ st.2 < n) (T : Vec) :
    sumNormSq (2 ^ n) (steps.foldl (fun T st => applyAxis n st.2 st.1 T) T)
      = sumNormSq (2 ^ n) T := by
  induction steps generalizing T with
  | nil => rfl
  | cons st rest ih =>
    rw [List.foldl_cons, ih (fun s hs => hsteps s (by simp [hs])),
      applyAxis_norm n st.2 (hsteps st (by simp)).2 st.1 (hsteps st (by simp)).1 T]

theorem bitsVal_go_lt (bits : List Char) : ∀ a : ℕ,
    bits.foldl (fun acc c => 2 * acc + (if c = '1' then 1 else 0)) a
      < (a + 1) * 2 ^ bits.length := by
  induction bits with
  | nil =>
    intro a
    simp
  | cons c rest ih =>
    intro a
    rw [List.foldl_cons]
    calc rest.foldl (fun acc c => 2 * acc + (if c = '1' then 1 else 0))
          (2 * a + (if c = '1' then 1 else 0))
        < (2 * a + (if c = '1' then 1 else 0) + 1) * 2 ^ rest.length := ih _
      _ ≤ (a + 1) * 2 ^ (c :: rest).length := by
          rw [List.length_cons, pow_succ', ← mul_assoc]
          apply Nat.mul_le_mul_right
          split <;> omega

theorem bitsVal_lt (bits : List Char) : bitsVal bits < 2 ^ bits.length := by
  have := bitsVal_go_lt bits 0
  simpa [bitsVal] using this

theorem svOpsList_length (n : ℕ) : (svOpsList n).length = n := by
  unfold svOpsList
  split
  · rename_i h
    simp only [List.length_append, List.length_replicate, List.length_cons,
      List.length_nil] at h ⊢
    omega
  · rename_i h
    simp only [List.length_append, List.length_replicate] at h ⊢
    omega

theorem svOpsList_normPres (n : ℕ) : ∀ Mg ∈ svOpsList n, NormPres2 Mg := by
  intro Mg h
  have hcase : Mg = gateH ∨ Mg = gateX ∨ Mg = gateI := by
    unfold svOpsList at h
    split at h
    · rcases List.mem_append.mp h with h1 | h1
      · rcases List.mem_append.mp h1 with h2 | h2
        · exact Or.inl (List.eq_of_mem_replicate h2)
        · exact Or.inr (Or.inl (List.eq_of_mem_replicate h2))
      · simp at h1
        exact Or.inr (Or.inr h1)
    · rcases List.mem_append.mp h with h2 | h2
      · exact Or.inl (List.eq_of_mem_replicate h2)
      · exact Or.inr (Or.inl (List.eq_of_mem_replicate h2))
  rcases hcase with h1 | h1 | h1 <;> subst h1
  exacts [gateH_normPres, gateX_normPres, gateI_normPres]

/-- C4: the initial state of either representation has squared norm exactly 1
(the dense engine's basis vector for any bitstring, and the tensor engine's
one-hot array), and one code round — `make_operations` followed by
`apply_operations`, for whatever values the generator drew — preserves the
squared norm exactly in both engines; hence after any sequence of rounds the
norm is still exactly 1, well within the 1e-9 tolerance. -/
theorem c4_normalization (M : RNGModel) :
    (∀ bits : List Char, sumNormSq (2 ^ bits.length) (buildBasisVec bits) = 1)
    ∧ (∀ n d : ℕ, d < 2 ^ n →
        sumNormSq (2 ^ n) (fun i => if i = d then 1 else 0) = 1)
    ∧ (∀ (sim : Sim) (g fuel : ℕ) (ops cxm : Mat) (sim1 : Sim) (g1 : ℕ), 0 < sim.n →
        sv_make_operations M sim g fuel = some (ops, cxm, sim1, g1) →
        sumNormSq (2 ^ sim.n) (sv_apply_operations sim1 ops cxm).state
          = sumNormSq (2 ^ sim.n) sim.state)
    ∧ (∀ (sim : Sim) (g fuel : ℕ) (steps : List (Mat × ℕ)) (cxm : Mat) (sim1 : Sim)
        (g1 : ℕ), 0 < sim.n →
        tensor_make_operations M sim g fuel = some (steps, cxm, sim1, g1) →
        sumNormSq (2 ^ sim.n) (tensor_apply_operations sim1 steps cxm).state
          = sumNormSq (2 ^ sim.n) sim.state) := by
  refine ⟨?_, ?_, ?_, ?_⟩
  · intro bits
    rw [buildBasisVec_eq]
    exact sumNormSq_basis _ _ (bitsVal_lt bits)
  · intro n d hd
    exact sumNormSq_basis _ _ hd
  · intro sim g fuel ops cxm sim1 g1 hpos hmk
    by_cases hn2 : sim.n < 2
    · unfold sv_make_operations at hmk
      rw [if_pos hn2] at hmk
      simp only [Option.some.injEq, Prod.mk.injEq] at hmk
      obtain ⟨hops, hcxm, hsim1, -⟩ := hmk
      subst hops
      subst hcxm
      subst hsim1
      have hn1 : sim.n = 1 := by omega
      show sumNormSq (2 ^ sim.n)
          (matVec (2 ^ sim.n) (matMul (2 ^ sim.n) gateI gateH) sim.state) = _
      rw [hn1, pow_one]
      unfold sumNormSq
      rw [Finset.sum_congr rfl
        (fun i _ => by rw [matVec_matMul 2 gateI gateH sim.state i])]
      have h1 := gateI_normPres (matVec 2 gateH sim.state)
      have h2 := gateH_normPres sim.state
      unfold sumNormSq at h1 h2
      rw [h1, h2]
    · unfold sv_make_operations at hmk
      rw [if_neg hn2] at hmk
      simp only [] at hmk
      rcases hdt : drawTarget M sim.n (M.randint g sim.n).1 fuel (M.randint g sim.n).2
        with _ | ⟨t, g2⟩
      · rw [hdt] at hmk
        exact absurd hmk (by simp)
      · rw [hdt] at hmk
        simp only [] at hmk
        have hcl := M.randint_lt g sim.n (by omega)
        obtain ⟨htl, htne⟩ := drawTarget_spec M sim.n _ (by omega) fuel _ t g2 hdt
        rw [simCX_eq sim _ t hcl htl (Ne.symm htne)] at hmk
        simp only [Option.some.injEq, Prod.mk.injEq] at hmk
        obtain ⟨hops, hcxm, hsim1, -⟩ := hmk
        subst hops
        subst hcxm
        subst hsim1
        show sumNormSq (2 ^ sim.n) (matVec (2 ^ sim.n)
          (matMul (2 ^ sim.n) (cxMat sim.n (M.randint g sim.n).1 t)
            (kronecker_product (svOpsList sim.n))) sim.state) = _
        unfold sumNormSq
        rw [Finset.sum_congr rfl (fun i _ => by
          rw [matVec_matMul (2 ^ sim.n) (cxMat sim.n (M.randint g sim.n).1 t)
            (kronecker_product (svOpsList sim.n)) sim.state i])]
        have hcx := cxMat_norm sim.n (M.randint g sim.n).1 t hcl htl (Ne.symm htne)
          (matVec (2 ^ sim.n) (kronecker_product (svOpsList sim.n)) sim.state)
        unfold sumNormSq at hcx
        rw [hcx]
        have hkf := kron_fold_norm (svOpsList sim.n) (svOpsList_normPres sim.n) sim.state
        rw [svOpsList_length] at hkf
        unfold sumNormSq at hkf
        rw [hkf]
  · intro sim g fuel steps cxm sim1 g1 hpos hmk
    by_cases hn2 : sim.n < 2
    · unfold tensor_make_operations at hmk
      rw [if_pos hn2] at hmk
      simp only [Option.some.injEq, Prod.mk.injEq] at hmk
      obtain ⟨hsteps, hcxm, hsim1, -⟩ := hmk
      subst hsteps
      subst hcxm
      subst hsim1
      have hn1 : sim.n = 1 := by omega
      show sumNormSq (2 ^ sim.n) (matVec (2 ^ sim.n) gateI
        ([(gateH, 0)].foldl (fun T st => applyAxis sim.n st.2 st.1 T) sim.state)) = _
      have hI : ∀ w : Vec, sumNormSq (2 ^ sim.n) (matVec (2 ^ sim.n) gateI w)
          = sumNormSq (2 ^ sim.n) w := by
        intro w
        rw [hn1, pow_one]
        exact gateI_normPres w
      rw [hI]
      rw [foldl_applyAxis_norm sim.n [(gateH, 0)]
        (by intro st h; simp at h; rw [h]; exact ⟨gateH_normPres, by omega⟩) sim.state]
    · unfold tensor_make_operations at hmk
      rw [if_neg hn2] at hmk
      simp only [] at hmk
      rcases hdt : drawTarget M sim.n (M.randint g sim.n).1 fuel (M.randint g sim.n).2
        with _ | ⟨t, g2⟩
      · rw [hdt] at hmk
        exact absurd hmk (by simp)
      · rw [hdt] at hmk
        simp only [] at hmk
        have hcl := M.randint_lt g sim.n (by omega)
        obtain ⟨htl, htne⟩ := drawTarget_spec M sim.n _ (by omega) fuel _ t g2 hdt
        rw [simCX_eq sim _ t hcl htl (Ne.symm htne)] at hmk
        simp only [Option.some.injEq, Prod.mk.injEq] at hmk
        obtain ⟨hsteps, hcxm, hsim1, -⟩ := hmk
        subst hsteps
        subst hcxm
        subst hsim1
        show sumNormSq (2 ^ sim.n) (matVec (2 ^ sim.n)
          (cxMat sim.n (M.randint g sim.n).1 t)
          ((((List.range (sim.n / 2)).map (fun i => (gateH, i))
            ++ (List.range (sim.n / 2)).map (fun i => (gateX, i + sim.n / 2))).reverse).foldl
              (fun T st => applyAxis sim.n st.2 st.1 T) sim.state)) = _
        rw [cxMat_norm sim.n (M.randint g sim.n).1 t hcl htl (Ne.symm htne)]
        apply foldl_applyAxis_norm
        intro st h
        rw [List.mem_reverse] at h
        rcases List.mem_append.mp h with h1 | h1 <;>
          obtain ⟨i, hi, rfl⟩ := List.mem_map.mp h1 <;>
          have hir := List.mem_range.mp hi
        · exact ⟨gateH_normPres, by omega⟩
        · exact ⟨gateX_normPres, by omega⟩

/-- C4 witness at concrete inputs: the 2-qubit initial state |01⟩ has norm
exactly 1, and the round applied by a 1-qubit dense simulator preserves the
norm of its state. -/
theorem c4_witness :
    sumNormSq (2 ^ 2) (buildBasisVec ['0', '1']) = 1
    ∧ sumNormSq (2 ^ 1) (sv_apply_operations ⟨1, 5, buildBasisVec ['0']⟩ gateH gateI).state
      = sumNormSq (2 ^ 1) (buildBasisVec ['0']) :=
  ⟨(c4_normalization lcg).1 ['0', '1'],
   (c4_normalization lcg).2.2.1 ⟨1, 5, buildBasisVec ['0']⟩ 0 3 gateH gateI
     ⟨1, 5, buildBasisVec ['0']⟩ 0 (by norm_num) rfl⟩

/-! ## Expectation-value machinery (C6) -/

theorem ofRat_mul (p q : ℚ) : Amp.ofRat (p * q) = Amp.ofRat p * Amp.ofRat q := by
  apply Amp.ext_comp <;> simp

theorem ofRat_one : Amp.ofRat 1 = 1 := by
  apply Amp.ext_comp <;> simp

@[simp] theorem Amp.sub_re1 (x y : Amp) : (x - y).re1 = x.re1 - y.re1 := by
  rw [sub_eq_add_neg, Amp.add_re1, Amp.neg_re1]
  ring

@[simp] theorem Amp.sub_reS (x y : Amp) : (x - y).reS = x.reS - y.reS := by
  rw [sub_eq_add_neg, Amp.add_reS, Amp.neg_reS]
  ring

@[simp] theorem Amp.sub_im1 (x y : Amp) : (x - y).im1 = x.im1 - y.im1 := by
  rw [sub_eq_add_neg, Amp.add_im1, Amp.neg_im1]
  ring

@[simp] theorem Amp.sub_imS (x y : Amp) : (x - y).imS = x.imS - y.imS := by
  rw [sub_eq_add_neg, Amp.add_imS, Amp.neg_imS]
  ring

theorem isReal_sub {x y : Amp} (hx : x.IsReal) (hy : y.IsReal) : (x - y).IsReal := by
  obtain ⟨h1, h2⟩ := hx
  obtain ⟨h3, h4⟩ := hy
  constructor <;> simp [h1, h2, h3, h4]

theorem isReal_add {x y : Amp} (hx : x.IsReal) (hy : y.IsReal) : (x + y).IsReal := by
  obtain ⟨h1, h2⟩ := hx
  obtain ⟨h3, h4⟩ := hy
  constructor <;> simp [h1, h2, h3, h4]

theorem isReal_mul {x y : Amp} (hx : x.IsReal) (hy : y.IsReal) : (x * y).IsReal := by
  obtain ⟨h1, h2⟩ := hx
  obtain ⟨h3, h4⟩ := hy
  constructor <;> simp [h1, h2, h3, h4]

theorem isReal_ofRat (q : ℚ) : (Amp.ofRat q).IsReal := ⟨rfl, rfl⟩

/-- Nonnegative amplitudes are closed under addition. -/
theorem nonneg_add {x y : Amp} (hx : x.Nonneg) (hy : y.Nonneg) : (x + y).Nonneg := by
  obtain ⟨hx1, hx2, hx3⟩ := hx
  obtain ⟨hy1, hy2, hy3⟩ := hy
  refine ⟨by simp [hx1, hy1], by simp [hx2, hy2], ?_⟩
  rw [Amp.add_re1, Amp.add_reS, kNonneg_iff]
  rw [kNonneg_iff] at hx3 hy3
  push_cast
  nlinarith [hx3, hy3]

/-- Squares of real amplitudes are nonnegative. -/
theorem nonneg_sq {x : Amp} (hx : x.IsReal) : (x * x).Nonneg := by
  obtain ⟨h1, h2⟩ := hx
  refine ⟨by simp [h1, h2], by simp [h1, h2], ?_⟩
  rw [Amp.mul_re1, Amp.mul_reS, h1, h2, kNonneg_iff]
  have hs2 : Real.sqrt 2 ^ 2 = 2 := Real.sq_sqrt (by norm_num)
  push_cast
  nlinarith [sq_nonneg ((x.re1 : ℝ) + (x.reS : ℝ) * Real.sqrt 2), hs2,
    sq_nonneg (x.reS : ℝ), Real.sqrt_nonneg 2]

/-- Scaling a nonnegative amplitude by a nonnegative rational. -/
theorem nonneg_ratmul {q : ℚ} {x : Amp} (hq : 0 ≤ q) (hx : x.Nonneg) :
    (Amp.ofRat q * x).Nonneg := by
  obtain ⟨h1, h2, h3⟩ := hx
  refine ⟨by simp [h1, h2], by simp [h1, h2], ?_⟩
  rw [Amp.mul_re1, Amp.mul_reS]
  simp only [Amp.ofRat_re1, Amp.ofRat_reS, Amp.ofRat_im1, Amp.ofRat_imS, h1, h2]
  rw [kNonneg_iff]
  rw [kNonneg_iff] at h3
  have hq' : (0:ℝ) ≤ (q:ℚ) := by exact_mod_cast hq
  push_cast
  ring_nf
  ring_nf at h3
  nlinarith [h3, hq']

/-- A sum of nonnegative amplitudes is nonnegative. -/
theorem nonneg_sum {s : Finset ℕ} {f : ℕ → Amp} (h : ∀ i ∈ s, (f i).Nonneg) :
    (∑ i ∈ s, f i).Nonneg := by
  classical
  induction s using Finset.cons_induction with
  | empty =>
    refine ⟨rfl, rfl, ?_⟩
    rw [Finset.sum_empty]
    exact Or.inl ⟨le_refl 0, le_refl 0⟩
  | cons a s ha ih =>
    rw [Finset.sum_cons]
    exact nonneg_add (h a (Finset.mem_cons_self a s))
      (ih fun i hi => h i (Finset.mem_cons_of_mem hi))

/-- Halving: if `x + x` is nonnegative then so is `x`. -/
theorem nonneg_of_add_self {x : Amp} (h : (x + x).Nonneg) : x.Nonneg := by
  obtain ⟨h1, h2, h3⟩ := h
  rw [Amp.add_im1] at h1
  rw [Amp.add_imS] at h2
  refine ⟨by linarith, by linarith, ?_⟩
  rw [Amp.add_re1, Amp.add_reS, kNonneg_iff] at h3
  rw [kNonneg_iff]
  push_cast at h3 ⊢
  nlinarith [h3]

/-- Shape of every entry of the n-fold observables: no √2 components, real
and imaginary parts of magnitude at most 1, and not both nonzero (the
entries of I, X, Y, Z and their Kronecker products lie in {0, ±1, ±i}). -/
def EntryS (x : Amp) : Prop :=
  x.reS = 0 ∧ x.imS = 0 ∧ x.re1 ^ 2 ≤ 1 ∧ x.im1 ^ 2 ≤ 1 ∧ x.re1 * x.im1 = 0

theorem EntryS_one : EntryS 1 := by
  refine ⟨rfl, rfl, ?_, ?_, ?_⟩ <;> norm_num

theorem EntryS_mul {x y : Amp} (hx : EntryS x) (hy : EntryS y) : EntryS (x * y) := by
  obtain ⟨hx1, hx2, hx3, hx4, hx5⟩ := hx
  obtain ⟨hy1, hy2, hy3, hy4, hy5⟩ := hy
  refine ⟨?_, ?_, ?_, ?_, ?_⟩
  · rw [Amp.mul_reS, hx1, hx2, hy1, hy2]
    ring
  · rw [Amp.mul_imS, hx1, hx2, hy1, hy2]
    ring
  · rw [Amp.mul_re1, hx1, hx2, hy1, hy2]
    rcases mul_eq_zero.mp hx5 with h | h <;> rw [h] <;> nlinarith [hx3, hx4, hy3, hy4]
  · rw [Amp.mul_im1, hx1, hx2, hy1, hy2]
    rcases mul_eq_zero.mp hx5 with h | h <;> rw [h] <;> nlinarith [hx3, hx4, hy3, hy4]
  · rw [Amp.mul_re1, Amp.mul_im1, hx1, hx2, hy1, hy2]
    rcases mul_eq_zero.mp hx5 with h | h <;> rw [h] <;>
      rcases mul_eq_zero.mp hy5 with h' | h' <;> rw [h'] <;> ring

theorem EntryS_gateI (a b : ℕ) : EntryS (gateI a b) := by
  unfold gateI
  split
  · exact EntryS_one
  split
  · exact EntryS_one
  · exact ⟨rfl, rfl, by norm_num, by norm_num, by norm_num⟩

theorem EntryS_gateX (a b : ℕ) : EntryS (gateX a b) := by
  unfold gateX
  split
  · exact EntryS_one
  split
  · exact EntryS_one
  · exact ⟨rfl, rfl, by norm_num, by norm_num, by norm_num⟩

theorem EntryS_gateZ (a b : ℕ) : EntryS (gateZ a b) := by
  unfold gateZ
  split
  · exact EntryS_one
  split
  · refine ⟨?_, ?_, ?_, ?_, ?_⟩ <;> simp
  · exact ⟨rfl, rfl, by norm_num, by norm_num, by norm_num⟩

theorem EntryS_gateY (a b : ℕ) : EntryS (gateY a b) := by
  unfold gateY
  split
  · refine ⟨?_, ?_, ?_, ?_, ?_⟩ <;> simp [iA]
  split
  · refine ⟨?_, ?_, ?_, ?_, ?_⟩ <;> simp [iA]
  · exact ⟨rfl, rfl, by norm_num, by norm_num, by norm_num⟩

theorem getD_replicate_of_lt {α : Type} (n k : ℕ) (x d : α) (hk : k < n) :
    (List.replicate n x).getD k d = x := by
  rw [List.getD_eq_getElem _ _ (by simpa using hk)]
  simp

/-- Every entry of the n-fold Kronecker power of I, X, Y or Z is in the
entry class. -/
theorem EntryS_kron_replicate (Gate : Mat) (hG : ∀ a b, EntryS (Gate a b))
    (n i j : ℕ) (hi : i < 2 ^ n) (hj : j < 2 ^ n) :
    EntryS (kronecker_product (List.replicate n Gate) i j) := by
  rw [kronecker_product_entry_bits _ n (List.length_replicate n Gate) i j hi hj]
  apply Finset.prod_induction _ EntryS (fun _ _ => EntryS_mul) EntryS_one
  intro q hq
  have hq' := Finset.mem_range.mp hq
  rw [getD_replicate_of_lt n (n - 1 - q) Gate gateI (by omega)]
  exact hG _ _

theorem bitAt_xor_mask (n q i : ℕ) (hq : q < n) :
    bitAt q (i ^^^ (2 ^ n - 1)) = 1 - bitAt q i := by
  rw [bitAt_testBit, bitAt_testBit, Nat.testBit_xor, Nat.testBit_two_pow_sub_one]
  by_cases h : i.testBit q <;> simp [h, hq]

theorem xor_mask_lt (n i : ℕ) (hi : i < 2 ^ n) : i ^^^ (2 ^ n - 1) < 2 ^ n :=
  Nat.xor_lt_two_pow hi (by have := Nat.pos_pow_of_pos n (show 0 < 2 by norm_num); omega)

theorem xor_mask_invol (n i : ℕ) : (i ^^^ (2 ^ n - 1)) ^^^ (2 ^ n - 1) = i :=
  Nat.xor_cancel_right _ _

theorem kron_replicate_zero_of_factor (Gate : Mat) (n i j q : ℕ) (hq : q < n)
    (hi : i < 2 ^ n) (hj : j < 2 ^ n) (hz : Gate (bitAt q i) (bitAt q j) = 0) :
    kronecker_product (List.replicate n Gate) i j = 0 := by
  rw [kronecker_product_entry_bits _ n (List.length_replicate n Gate) i j hi hj]
  apply Finset.prod_eq_zero (Finset.mem_range.mpr hq)
  rw [getD_replicate_of_lt n (n - 1 - q) Gate gateI (by omega)]
  exact hz

theorem kronX_offgraph (n i j : ℕ) (hi : i < 2 ^ n) (hj : j < 2 ^ n)
    (hne : j ≠ i ^^^ (2 ^ n - 1)) :
    kronecker_product (List.replicate n gateX) i j = 0 := by
  have hex : ∃ q, q < n ∧ bitAt q i = bitAt q j := by
    by_contra hc
    push_neg at hc
    apply hne
    apply eq_of_bits_eq hj (xor_mask_lt n i hi)
    intro q hq
    rw [bitAt_xor_mask n q i hq]
    have h1 := hc q hq
    have h2 := bitAt_lt_two q i
    have h3 := bitAt_lt_two q j
    omega
  obtain ⟨q, hq, hbit⟩ := hex
  apply kron_replicate_zero_of_factor gateX n i j q hq hi hj
  rw [gateX_entry _ _ (bitAt_lt_two q i) (bitAt_lt_two q j), if_pos hbit]

theorem gateY_entry_eq_zero (a b : ℕ) (ha : a < 2) (hb : b < 2) (hab : a = b) :
    gateY a b = 0 := by
  subst hab
  interval_cases a <;> simp [gateY]

theorem kronY_offgraph (n i j : ℕ) (hi : i < 2 ^ n) (hj : j < 2 ^ n)
    (hne : j ≠ i ^^^ (2 ^ n - 1)) :
    kronecker_product (List.replicate n gateY) i j = 0 := by
  have hex : ∃ q, q < n ∧ bitAt q i = bitAt q j := by
    by_contra hc
    push_neg at hc
    apply hne
    apply eq_of_bits_eq hj (xor_mask_lt n i hi)
    intro q hq
    rw [bitAt_xor_mask n q i hq]
    have h1 := hc q hq
    have h2 := bitAt_lt_two q i
    have h3 := bitAt_lt_two q j
    omega
  obtain ⟨q, hq, hbit⟩ := hex
  exact kron_replicate_zero_of_factor gateY n i j q hq hi hj
    (gateY_entry_eq_zero _ _ (bitAt_lt_two q i) (bitAt_lt_two q j) hbit)

theorem gateZ_entry_eq_zero (a b : ℕ) (ha : a < 2) (hb : b < 2) (hab : a ≠ b) :
    gateZ a b = 0 := by
  interval_cases a <;> interval_cases b <;> simp_all [gateZ]

theorem kronZ_offgraph (n i j : ℕ) (hi : i < 2 ^ n) (hj : j < 2 ^ n) (hne : j ≠ i) :
    kronecker_product (List.replicate n gateZ) i j = 0 := by
  have hex : ∃ q, q < n ∧ bitAt q i ≠ bitAt q j := by
    by_contra hc
    push_neg at hc
    exact hne (eq_of_bits_eq hj hi fun q hq => (hc q hq).symm)
  obtain ⟨q, hq, hbit⟩ := hex
  exact kron_replicate_zero_of_factor gateZ n i j q hq hi hj
    (gateZ_entry_eq_zero _ _ (bitAt_lt_two q i) (bitAt_lt_two q j) hbit)

theorem reK_sum (s : Finset ℕ) (f : ℕ → Amp) :
    Amp.reK (∑ i ∈ s, f i) = ∑ i ∈ s, Amp.reK (f i) := by
  classical
  induction s using Finset.cons_induction with
  | empty => apply Amp.ext_comp <;> simp [Amp.reK]
  | cons a s ha ih =>
    rw [Finset.sum_cons, Finset.sum_cons, ← ih]
    apply Amp.ext_comp <;> simp [Amp.reK]

theorem reK_term {x y g : Amp} (hx : x.IsReal) (hy : y.IsReal)
    (hg1 : g.reS = 0) (hg2 : g.imS = 0) :
    Amp.reK (x * g * y) = Amp.ofRat g.re1 * (x * y) := by
  obtain ⟨hx1, hx2⟩ := hx
  obtain ⟨hy1, hy2⟩ := hy
  apply Amp.ext_comp <;>
    simp [Amp.reK, Amp.ofRat, hx1, hx2, hy1, hy2, hg1, hg2] <;> ring

theorem amgm_term (x y : Amp) (c : ℚ) :
    (x - Amp.ofRat c * y) * (x - Amp.ofRat c * y) + Amp.ofRat (1 - c ^ 2) * (y * y)
      = x * x + y * y - (Amp.ofRat c * (x * y) + Amp.ofRat c * (x * y)) := by
  have h1 : Amp.ofRat (1 - c ^ 2) = 1 - Amp.ofRat c * Amp.ofRat c := by
    apply Amp.ext_comp <;> simp <;> ring
  rw [h1]
  ring

theorem ofRat_neg (c : ℚ) : Amp.ofRat (-c) = -Amp.ofRat c := by
  apply Amp.ext_comp <;> simp

/-- AM–GM bound for the program's expectation value: if the observable's
matrix has entries in the entry class, vanishes off the graph of an
involution of the index range, and the state is real and normalised, then
the computed value lies in [-1, 1]. -/
theorem expectation_bound_core (n : ℕ) (ψ : Vec) (G : Mat) (σf : ℕ → ℕ)
    (hσlt : ∀ i < 2 ^ n, σf i < 2 ^ n)
    (hσinv : ∀ i < 2 ^ n, σf (σf i) = i)
    (hreal : ∀ i < 2 ^ n, (ψ i).IsReal)
    (hnorm : sumNormSq (2 ^ n) ψ = 1)
    (hGS : ∀ i j, i < 2 ^ n → j < 2 ^ n → EntryS (G i j))
    (hGz : ∀ i j, i < 2 ^ n → j < 2 ^ n → j ≠ σf i → G i j = 0) :
    Amp.Nonneg (1 - expectationRaw n ψ G) ∧ Amp.Nonneg (1 + expectationRaw n ψ G) := by
  have hv : expectationRaw n ψ G
      = ∑ i ∈ Finset.range (2 ^ n), Amp.ofRat (G i (σf i)).re1 * (ψ i * ψ (σf i)) := by
    unfold expectationRaw
    rw [reK_sum]
    apply Finset.sum_congr rfl
    intro i hi
    rw [Finset.mem_range] at hi
    rw [reK_sum, Finset.sum_eq_single (σf i)]
    · exact reK_term (hreal i hi) (hreal _ (hσlt i hi)) (hGS i _ hi (hσlt i hi)).1
        (hGS i _ hi (hσlt i hi)).2.1
    · intro j hj hne
      rw [Finset.mem_range] at hj
      rw [hGz i j hi hj hne]
      apply Amp.ext_comp <;> simp [Amp.reK]
    · intro habs
      exact absurd (Finset.mem_range.mpr (hσlt i hi)) habs
  have hnorm1 : ∑ i ∈ Finset.range (2 ^ n), ψ i * ψ i = 1 := by
    rw [← hnorm]
    unfold sumNormSq
    apply Finset.sum_congr rfl
    intro i hi
    rw [Finset.mem_range] at hi
    unfold Amp.normSq
    rw [Amp.conj_of_isReal (hreal i hi)]
  have hnorm2 : ∑ i ∈ Finset.range (2 ^ n), ψ (σf i) * ψ (σf i) = 1 := by
    rw [← hnorm1]
    exact Finset.sum_nbij' σf σf
      (fun a ha => Finset.mem_range.mpr (hσlt a (Finset.mem_range.mp ha)))
      (fun a ha => Finset.mem_range.mpr (hσlt a (Finset.mem_range.mp ha)))
      (fun a ha => hσinv a (Finset.mem_range.mp ha))
      (fun a ha => hσinv a (Finset.mem_range.mp ha))
      (fun a _ => rfl)
  have hcsq : ∀ i, i < 2 ^ n → (G i (σf i)).re1 ^ 2 ≤ 1 :=
    fun i hi => (hGS i _ hi (hσlt i hi)).2.2.1
  constructor
  · apply nonneg_of_add_self
    have hsum : (1 - expectationRaw n ψ G) + (1 - expectationRaw n ψ G)
        = ∑ i ∈ Finset.range (2 ^ n),
            ((ψ i - Amp.ofRat (G i (σf i)).re1 * ψ (σf i))
                * (ψ i - Amp.ofRat (G i (σf i)).re1 * ψ (σf i))
              + Amp.ofRat (1 - (G i (σf i)).re1 ^ 2) * (ψ (σf i) * ψ (σf i))) := by
      rw [Finset.sum_congr rfl
        (fun i _ => amgm_term (ψ i) (ψ (σf i)) ((G i (σf i)).re1))]
      rw [Finset.sum_sub_distrib, Finset.sum_add_distrib, Finset.sum_add_distrib,
        hnorm1, hnorm2, ← hv]
      ring
    rw [hsum]
    apply nonneg_sum
    intro i hi
    rw [Finset.mem_range] at hi
    apply nonneg_add
    · exact nonneg_sq (isReal_sub (hreal i hi)
        (isReal_mul (isReal_ofRat _) (hreal _ (hσlt i hi))))
    · exact nonneg_ratmul (by have := hcsq i hi; linarith)
        (nonneg_sq (hreal _ (hσlt i hi)))
  · apply nonneg_of_add_self
    have hsum : (1 + expectationRaw n ψ G) + (1 + expectationRaw n ψ G)
        = ∑ i ∈ Finset.range (2 ^ n),
            ((ψ i - Amp.ofRat (-(G i (σf i)).re1) * ψ (σf i))
                * (ψ i - Amp.ofRat (-(G i (σf i)).re1) * ψ (σf i))
              + Amp.ofRat (1 - (-(G i (σf i)).re1) ^ 2) * (ψ (σf i) * ψ (σf i))) := by
      rw [Finset.sum_congr rfl
        (fun i _ => amgm_term (ψ i) (ψ (σf i)) (-(G i (σf i)).re1))]
      have hneg : ∀ i ∈ Finset.range (2 ^ n),
          Amp.ofRat (-(G i (σf i)).re1) * (ψ i * ψ (σf i))
            + Amp.ofRat (-(G i (σf i)).re1) * (ψ i * ψ (σf i))
          = -(Amp.ofRat (G i (σf i)).re1 * (ψ i * ψ (σf i))
              + Amp.ofRat (G i (σf i)).re1 * (ψ i * ψ (σf i))) := by
        intro i _
        rw [ofRat_neg]
        ring
      rw [Finset.sum_congr rfl (fun i hi => by rw [hneg i hi])]
      rw [Finset.sum_sub_distrib, Finset.sum_add_distrib, Finset.sum_neg_distrib,
        Finset.sum_add_distrib, hnorm1, hnorm2, ← hv]
      ring
    rw [hsum]
    apply nonneg_sum
    intro i hi
    rw [Finset.mem_range] at hi
    apply nonneg_add
    · exact nonneg_sq (isReal_sub (hreal i hi)
        (isReal_mul (isReal_ofRat _) (hreal _ (hσlt i hi))))
    · exact nonneg_ratmul (by have := hcsq i hi; nlinarith)
        (nonneg_sq (hreal _ (hσlt i hi)))

theorem reK_one : Amp.reK 1 = 1 := by
  apply Amp.ext_comp <;> simp [Amp.reK]

theorem reK_isReal (x : Amp) : (Amp.reK x).IsReal := ⟨rfl, rfl⟩

theorem expectationRaw_conj (n : ℕ) (ψ : Vec) (G : Mat)
    (hreal : ∀ i < 2 ^ n, (ψ i).IsReal) :
    expectationRaw n ψ G
      = Amp.reK (∑ i ∈ Finset.range (2 ^ n), ∑ j ∈ Finset.range (2 ^ n),
          (ψ i).conj * G i j * ψ j) := by
  unfold expectationRaw
  congr 1
  apply Finset.sum_congr rfl
  intro i hi
  apply Finset.sum_congr rfl
  intro j _
  rw [Amp.conj_of_isReal (hreal i (Finset.mem_range.mp hi))]

/-- C6: on the simulator's states (real amplitudes — the only states the
engines produce — and unit norm), `calculate_expectation_value` computes the
real part of stateᴴ · O^{⊗n} · state (the code's plain transpose agrees with
the conjugate transpose on real states); the value for observable I is
exactly 1, and for each of X, Y, Z the value is real and lies in [-1, 1]. -/
theorem c6_expectation (sim : Sim)
    (hreal : ∀ i < 2 ^ sim.n, (sim.state i).IsReal)
    (hnorm : sumNormSq (2 ^ sim.n) sim.state = 1) :
    (∀ G : Mat, expectationRaw sim.n sim.state G
      = Amp.reK (∑ i ∈ Finset.range (2 ^ sim.n), ∑ j ∈ Finset.range (2 ^ sim.n),
          (sim.state i).conj * G i j * sim.state j))
    ∧ calculate_expectation_value sim "I" = Except.ok 1
    ∧ (∀ gate ∈ (["X", "Y", "Z"] : List String), ∃ v : Amp,
        calculate_expectation_value sim gate = Except.ok v
        ∧ v.IsReal ∧ Amp.Nonneg (1 - v) ∧ Amp.Nonneg (1 + v)) := by
  have hnorm1 : ∑ i ∈ Finset.range (2 ^ sim.n), sim.state i * sim.state i = 1 := by
    rw [← hnorm]
    unfold sumNormSq
    apply Finset.sum_congr rfl
    intro i hi
    rw [Finset.mem_range] at hi
    unfold Amp.normSq
    rw [Amp.conj_of_isReal (hreal i hi)]
  refine ⟨fun G => expectationRaw_conj sim.n sim.state G hreal, ?_, ?_⟩
  · show Except.ok (expectationRaw sim.n sim.state
      (kronecker_product (List.replicate sim.n gateI))) = Except.ok 1
    congr 1
    unfold expectationRaw
    have hinner : ∀ i ∈ Finset.range (2 ^ sim.n),
        (∑ j ∈ Finset.range (2 ^ sim.n), sim.state i
          * kronecker_product (List.replicate sim.n gateI) i j * sim.state j)
        = sim.state i * sim.state i := by
      intro i hi
      rw [Finset.mem_range] at hi
      rw [Finset.sum_eq_single i]
      · rw [kronecker_product_replicate_I sim.n i i hi hi, if_pos rfl, mul_one]
      · intro j hj hne
        rw [Finset.mem_range] at hj
        rw [kronecker_product_replicate_I sim.n i j hi hj, if_neg (fun h => hne h.symm),
          mul_zero, zero_mul]
      · intro h
        exact absurd (Finset.mem_range.mpr hi) h
    rw [Finset.sum_congr rfl hinner, hnorm1, reK_one]
  · intro gate hg
    have hσX : ∀ i < 2 ^ sim.n, i ^^^ (2 ^ sim.n - 1) < 2 ^ sim.n :=
      fun i hi => xor_mask_lt sim.n i hi
    have hσXinv : ∀ i < 2 ^ sim.n, (i ^^^ (2 ^ sim.n - 1)) ^^^ (2 ^ sim.n - 1) = i :=
      fun i _ => xor_mask_invol sim.n i
    simp only [List.mem_cons, List.not_mem_nil, or_false] at hg
    rcases hg with rfl | rfl | rfl
    · refine ⟨expectationRaw sim.n sim.state
        (kronecker_product (List.replicate sim.n gateX)), rfl, reK_isReal _, ?_⟩
      exact expectation_bound_core sim.n sim.state _ (fun i => i ^^^ (2 ^ sim.n - 1))
        hσX hσXinv hreal hnorm
        (fun i j hi hj => EntryS_kron_replicate gateX EntryS_gateX sim.n i j hi hj)
        (fun i j hi hj hne => kronX_offgraph sim.n i j hi hj hne)
    · refine ⟨expectationRaw sim.n sim.state
        (kronecker_product (List.replicate sim.n gateY)), rfl, reK_isReal _, ?_⟩
      exact expectation_bound_core sim.n sim.state _ (fun i => i ^^^ (2 ^ sim.n - 1))
        hσX hσXinv hreal hnorm
        (fun i j hi hj => EntryS_kron_replicate gateY EntryS_gateY sim.n i j hi hj)
        (fun i j hi hj hne => kronY_offgraph sim.n i j hi hj hne)
    · refine ⟨expectationRaw sim.n sim.state
        (kronecker_product (List.replicate sim.n gateZ)), rfl, reK_isReal _, ?_⟩
      exact expectation_bound_core sim.n sim.state _ (fun i => i)
        (fun i hi => hi) (fun i _ => rfl) hreal hnorm
        (fun i j hi hj => EntryS_kron_replicate gateZ EntryS_gateZ sim.n i j hi hj)
        (fun i j hi hj hne => kronZ_offgraph sim.n i j hi hj hne)

/-- C6 witness at a concrete input: the 1-qubit simulator in state |0⟩. -/
theorem c6_witness :
    calculate_expectation_value ⟨1, 0, buildBasisVec ['0']⟩ "I" = Except.ok 1
    ∧ ∃ v : Amp, calculate_expectation_value ⟨1, 0, buildBasisVec ['0']⟩ "X" = Except.ok v
        ∧ v.IsReal ∧ Amp.Nonneg (1 - v) ∧ Amp.Nonneg (1 + v) := by
  have hr : ∀ i < 2 ^ (1:ℕ), ((buildBasisVec ['0']) i).IsReal := by
    intro i _
    rw [buildBasisVec_eq]
    show (if i = bitsVal ['0'] then (1 : Amp) else 0).IsReal
    by_cases h : i = bitsVal ['0']
    · rw [if_pos h]
      exact ⟨rfl, rfl⟩
    · rw [if_neg h]
      exact ⟨rfl, rfl⟩
  have hn : sumNormSq (2 ^ (1:ℕ)) (buildBasisVec ['0']) = 1 := by
    rw [buildBasisVec_eq]
    exact sumNormSq_basis _ _ (by decide)
  have h := c6_expectation ⟨1, 0, buildBasisVec ['0']⟩ hr hn
  exact ⟨h.2.1, h.2.2 "X" (by simp)⟩

/-! ## Bra-ket rendering: term characterisation and concrete evaluations -/

theorem gtThreshold_ne_zero {x : Amp} (h : gtThreshold x = true) :
    decide (x ≠ 0) = true := by
  apply decide_eq_true
  intro hx
  rw [hx] at h
  unfold gtThreshold at h
  have h' := of_decide_eq_true h
  norm_num [KPos, threshold] at h'

theorem gtZero_of_gtThreshold {x : Amp} (h : gtThreshold x = true) : gtZero x = true := by
  apply decide_eq_true
  have h' := of_decide_eq_true (by unfold gtThreshold at h; exact h)
  rw [kPos_iff] at h' ⊢
  have ht : (0:ℝ) < ((threshold : ℚ) : ℝ) := by norm_num [threshold]
  push_cast at h' ⊢
  linarith

/-- The dense-engine nonzero pre-filter is subsumed by the threshold test. -/
theorem sv_terms_eq (sim : Sim) :
    sv_braket_terms sim
      = ((List.range (2 ^ sim.n)).filter (fun d => gtThreshold (sim.state d))).map
          (fun d => (d, sim.state d)) := by
  unfold sv_braket_terms
  congr 1
  rw [List.filter_filter]
  apply List.filter_congr
  intro d _
  show (gtThreshold (sim.state d) && decide (sim.state d ≠ 0)) = gtThreshold (sim.state d)
  cases hg : gtThreshold (sim.state d)
  · simp
  · simp [gtThreshold_ne_zero hg]

/-- The tensor-engine positivity pre-filter is subsumed by the threshold test. -/
theorem tensor_terms_eq (sim : Sim) :
    tensor_braket_terms sim
      = ((List.range (2 ^ sim.n)).filter (fun d => gtThreshold (sim.state d))).map
          (fun d => (d, sim.state d)) := by
  unfold tensor_braket_terms
  congr 1
  rw [List.filter_filter]
  apply List.filter_congr
  intro d _
  show (gtThreshold (sim.state d) && gtZero (sim.state d)) = gtThreshold (sim.state d)
  cases hg : gtThreshold (sim.state d)
  · simp
  · simp [gtZero_of_gtThreshold hg]

/-- Filtering `range N` with a predicate true only at `k` yields `[k]`. -/
theorem filter_range_basis (p : ℕ → Bool) (k : ℕ) (hpk : p k = true)
    (hp : ∀ d, d ≠ k → p d = false) :
    ∀ N, k < N → (List.range N).filter p = [k] := by
  intro N
  induction N with
  | zero => intro h; exact absurd h (Nat.not_lt_zero k)
  | succ m ih =>
    intro hk
    rw [List.range_succ, List.filter_append]
    by_cases hkm : k = m
    · subst hkm
      have h1 : (List.range k).filter p = [] := by
        rw [List.filter_eq_nil_iff]
        intro a ha
        rw [List.mem_range] at ha
        simp [hp a (Nat.ne_of_lt ha)]
      rw [h1]
      simp [List.filter_cons, hpk]
    · have hk' : k < m := by omega
      rw [ih hk']
      have h2 : ([m] : List ℕ).filter p = [] := by
        simp [List.filter_cons, hp m (fun h => hkm h.symm)]
      rw [h2]
      simp

theorem gtThreshold_one : gtThreshold (1 : Amp) = true := by
  unfold gtThreshold
  apply decide_eq_true
  norm_num [KPos, threshold]

theorem gtThreshold_zero : gtThreshold (0 : Amp) = false := by
  unfold gtThreshold
  apply decide_eq_false
  norm_num [KPos, threshold]

theorem kAbs_one : kAbs (1 : Amp) = 1 := by
  unfold kAbs
  have hc : KNonneg (1:Amp).re1 (1:Amp).reS := by norm_num [KNonneg]
  rw [if_pos hc]
  apply Amp.ext_comp <;> simp [Amp.reK]

theorem m3_one : m3 (1 : Amp) = 1000 := by
  unfold m3 floorK
  norm_num

theorem fmtMag_one : fmtMag (1 : Amp) = "(1.000)" := by
  unfold fmtMag
  rw [kAbs_one, m3_one]
  rfl

/-- C5 (amended): the renderings keep exactly the positions whose SIGNED
amplitude exceeds the 1e-10 threshold: zero, below-threshold AND negative
amplitudes are all dropped (the dense engine zeroes any amplitude not above
the threshold before the sign test; the tensor engine pre-filters with
`state > 0`), so a '-' join never occurs — every kept term is strictly
positive and every join is " + ".  For n = 4 and initial bitstring "0000"
the rendering is exactly "(1.000)|0000⟩" in both engines. -/
theorem c5_amended :
    (∀ sim : Sim,
      sv_braket_terms sim
        = ((List.range (2 ^ sim.n)).filter (fun d => gtThreshold (sim.state d))).map
            (fun d => (d, sim.state d))
      ∧ tensor_braket_terms sim
        = ((List.range (2 ^ sim.n)).filter (fun d => gtThreshold (sim.state d))).map
            (fun d => (d, sim.state d))
      ∧ (sv_braket_terms sim).all (fun t => gtZero t.2) = true
      ∧ (tensor_braket_terms sim).all (fun t => gtZero t.2) = true)
    ∧ sv_state_to_braket ⟨4, 0, buildBasisVec ['0','0','0','0']⟩ = "(1.000)|0000⟩"
    ∧ tensor_state_to_braket ⟨4, 0, buildBasisVec ['0','0','0','0']⟩ = "(1.000)|0000⟩" := by
  have hψ : buildBasisVec ['0','0','0','0'] = fun i => if i = 0 then (1:Amp) else 0 := by
    rw [buildBasisVec_eq]
    rfl
  have hfil : (List.range (2 ^ 4)).filter
      (fun d => gtThreshold (buildBasisVec ['0','0','0','0'] d)) = [0] := by
    rw [hψ]
    apply filter_range_basis
    · show gtThreshold (if 0 = 0 then (1:Amp) else 0) = true
      rw [if_pos rfl]
      exact gtThreshold_one
    · intro d hd
      show gtThreshold (if d = 0 then (1:Amp) else 0) = false
      rw [if_neg hd]
      exact gtThreshold_zero
    · norm_num
  have htm : sv_braket_terms ⟨4, 0, buildBasisVec ['0','0','0','0']⟩ = [(0, (1:Amp))] := by
    rw [sv_terms_eq]
    show ((List.range (2 ^ 4)).filter
        (fun d => gtThreshold (buildBasisVec ['0','0','0','0'] d))).map
      (fun d => (d, buildBasisVec ['0','0','0','0'] d)) = [(0, (1:Amp))]
    rw [hfil, hψ]
    rfl
  have htm2 : tensor_braket_terms ⟨4, 0, buildBasisVec ['0','0','0','0']⟩ = [(0, (1:Amp))] := by
    rw [tensor_terms_eq]
    show ((List.range (2 ^ 4)).filter
        (fun d => gtThreshold (buildBasisVec ['0','0','0','0'] d))).map
      (fun d => (d, buildBasisVec ['0','0','0','0'] d)) = [(0, (1:Amp))]
    rw [hfil, hψ]
    rfl
  have hasm : braket_assemble 4 [(0, (1:Amp))] = "(1.000)|0000⟩" := by
    show (if ("" : String) = "" then fmtMag (1:Amp) ++ "|" ++ to_bin 4 0 ++ "⟩"
        else "" ++ (if gtZero (1:Amp) then " + " else " - ")
          ++ fmtMag (1:Amp) ++ "|" ++ to_bin 4 0 ++ "⟩")
      = "(1.000)|0000⟩"
    rw [if_pos rfl, fmtMag_one]
    rfl
  refine ⟨fun sim => ⟨sv_terms_eq sim, tensor_terms_eq sim, ?_, ?_⟩, ?_, ?_⟩
  · rw [List.all_eq_true]
    intro t ht
    rw [sv_terms_eq, List.mem_map] at ht
    obtain ⟨d, hd, rfl⟩ := ht
    rw [List.mem_filter] at hd
    exact gtZero_of_gtThreshold hd.2
  · rw [List.all_eq_true]
    intro t ht
    rw [tensor_terms_eq, List.mem_map] at ht
    obtain ⟨d, hd, rfl⟩ := ht
    rw [List.mem_filter] at hd
    exact gtZero_of_gtThreshold hd.2
  · show braket_assemble (⟨4, 0, buildBasisVec ['0','0','0','0']⟩ : Sim).n
      (sv_braket_terms ⟨4, 0, buildBasisVec ['0','0','0','0']⟩) = "(1.000)|0000⟩"
    rw [htm]
    exact hasm
  · show braket_assemble (⟨4, 0, buildBasisVec ['0','0','0','0']⟩ : Sim).n
      (tensor_braket_terms ⟨4, 0, buildBasisVec ['0','0','0','0']⟩) = "(1.000)|0000⟩"
    rw [htm2]
    exact hasm

/-- The one-qubit real state (3/5)|0⟩ − (4/5)|1⟩ (normalised, reachable in
principle by any routine storing real amplitudes; the rendering functions
are total on states, so any state exercises them). -/
def c5vec : Vec :=
  fun i => if i = 0 then Amp.ofRat (3/5) else if i = 1 then Amp.ofRat (-(4/5)) else 0

/-- C5 counterexample: the amplitude at position 1 of `c5vec` is negative
with magnitude 0.8, far above the 1e-10 threshold, so the claim requires it
to be rendered joined with '-'; but both `state_to_braket` overrides drop it
entirely, rendering only "(0.600)|0⟩". -/
theorem c5_counterexample :
    gtThreshold (kAbs (c5vec 1)) = true
    ∧ gtZero (c5vec 1) = false
    ∧ sv_state_to_braket ⟨1, 0, c5vec⟩ = "(0.600)|0⟩"
    ∧ tensor_state_to_braket ⟨1, 0, c5vec⟩ = "(0.600)|0⟩" := by
  have hka : kAbs (c5vec 1) = Amp.ofRat (4/5) := by
    show kAbs (Amp.ofRat (-(4/5))) = Amp.ofRat (4/5)
    unfold kAbs
    rw [if_neg]
    · apply Amp.ext_comp <;> simp [Amp.reK]
    · show ¬ KNonneg (Amp.ofRat (-(4/5))).re1 (Amp.ofRat (-(4/5))).reS
      norm_num [KNonneg]
  have hg0 : gtThreshold (c5vec 0) = true := by
    show gtThreshold (Amp.ofRat (3/5)) = true
    unfold gtThreshold
    apply decide_eq_true
    norm_num [KPos, threshold]
  have hg1 : gtThreshold (c5vec 1) = false := by
    show gtThreshold (Amp.ofRat (-(4/5))) = false
    unfold gtThreshold
    apply decide_eq_false
    norm_num [KPos, threshold]
  have hfil : (List.range (2 ^ 1)).filter (fun d => gtThreshold (c5vec d)) = [0] := by
    apply filter_range_basis
    · show gtThreshold (c5vec 0) = true
      exact hg0
    · intro d hd
      show gtThreshold (c5vec d) = false
      by_cases h1 : d = 1
      · subst h1
        exact hg1
      · have hz : c5vec d = 0 := by
          unfold c5vec
          rw [if_neg hd, if_neg h1]
        rw [hz]
        exact gtThreshold_zero
    · norm_num
  have htm : sv_braket_terms ⟨1, 0, c5vec⟩ = [(0, Amp.ofRat (3/5))] := by
    rw [sv_terms_eq]
    show ((List.range (2 ^ 1)).filter (fun d => gtThreshold (c5vec d))).map
      (fun d => (d, c5vec d)) = [(0, Amp.ofRat (3/5))]
    rw [hfil]
    rfl
  have htm2 : tensor_braket_terms ⟨1, 0, c5vec⟩ = [(0, Amp.ofRat (3/5))] := by
    rw [tensor_terms_eq]
    show ((List.range (2 ^ 1)).filter (fun d => gtThreshold (c5vec d))).map
      (fun d => (d, c5vec d)) = [(0, Amp.ofRat (3/5))]
    rw [hfil]
    rfl
  have hfm : fmtMag (Amp.ofRat (3/5)) = "(0.600)" := by
    unfold fmtMag
    have hka3 : kAbs (Amp.ofRat (3/5)) = Amp.ofRat (3/5) := by
      unfold kAbs
      have hc : KNonneg (Amp.ofRat (3/5)).re1 (Amp.ofRat (3/5)).reS := by
        norm_num [KNonneg]
      rw [if_pos hc]
      apply Amp.ext_comp <;> simp [Amp.reK]
    rw [hka3]
    have hm3 : m3 (Amp.ofRat (3/5)) = 600 := by
      unfold m3 floorK
      norm_num
    rw [hm3]
    rfl
  have hasm : braket_assemble 1 [(0, Amp.ofRat (3/5))] = "(0.600)|0⟩" := by
    show (if ("" : String) = "" then fmtMag (Amp.ofRat (3/5)) ++ "|" ++ to_bin 1 0 ++ "⟩"
        else "" ++ (if gtZero (Amp.ofRat (3/5)) then " + " else " - ")
          ++ fmtMag (Amp.ofRat (3/5)) ++ "|" ++ to_bin 1 0 ++ "⟩")
      = "(0.600)|0⟩"
    rw [if_pos rfl, hfm]
    rfl
  refine ⟨?_, ?_, ?_, ?_⟩
  · rw [hka]
    unfold gtThreshold
    apply decide_eq_true
    norm_num [KPos, threshold]
  · show gtZero (Amp.ofRat (-(4/5))) = false
    unfold gtZero
    apply decide_eq_false
    norm_num [KPos]
  · show braket_assemble (⟨1, 0, c5vec⟩ : Sim).n (sv_braket_terms ⟨1, 0, c5vec⟩) = "(0.600)|0⟩"
    rw [htm]
    exact hasm
  · show braket_assemble (⟨1, 0, c5vec⟩ : Sim).n (tensor_braket_terms ⟨1, 0, c5vec⟩) = "(0.600)|0⟩"
    rw [htm2]
    exact hasm

/-! ## Cross-engine construction: asymmetric generator consumption -/

/-- C1 (code bug): with identical seed, qubit count, and an explicit initial
bitstring, the dense-vector constructor always draws an n-bit random
bitstring — advancing the process-wide generator n draws — before discarding
it in favour of the explicit state, while the tensor constructor skips the
draw.  Both engines build the same initial simulator record, but leave the
generator in different positions, so the next round's control draw reads
different stream positions (third conjunct: a concrete model where the
control qubits differ), and the engines' one-round final states differ in
general — refuting the claimed cross-model equivalence under identical
seeding. -/
theorem c1_rng_divergence :
    (∀ (M : RNGModel) (n : ℕ) (bits : List Char) (seed : ℤ) (g : ℕ),
      bits.isEmpty = false →
      bits.all (fun c => c == '0' || c == '1') = true →
      svInit M n (some bits) (some seed) g
        = Except.ok ({ n := n, seed := (gateSimulator_init_seed M (some seed) g).1,
                       state := buildBasisVec bits },
            (drawBits M n (gateSimulator_init_seed M (some seed) g).2).2)
      ∧ tensorInit M n (some bits) (some seed) g
        = Except.ok ({ n := n, seed := (gateSimulator_init_seed M (some seed) g).1,
                       state := buildBasisVec bits },
            (gateSimulator_init_seed M (some seed) g).2))
    ∧ (svInit lcg 4 (some ['0','0','0','0']) (some 42) 0).toOption.map (fun p => p.2)
        ≠ (tensorInit lcg 4 (some ['0','0','0','0']) (some 42) 0).toOption.map (fun p => p.2)
    ∧ (lcg.randint (drawBits lcg 5 (gateSimulator_init_seed lcg (some 1) 0).2).2 5).1
        ≠ (lcg.randint (gateSimulator_init_seed lcg (some 1) 0).2 5).1 := by
  refine ⟨fun M n bits seed g hne hok => ⟨?_, ?_⟩, by decide, by decide⟩
  · unfold svInit initialize_state
    simp [hne, hok]
  · unfold tensorInit
    rw [buildBasisVec_eq]
    simp [hne, hok]

/-- C1 theorem, applied at a concrete input. -/
theorem c1_rng_divergence_witness :
    svInit lcg 2 (some ['1','0']) (some 5) 0
      = Except.ok ({ n := 2, seed := (gateSimulator_init_seed lcg (some 5) 0).1,
                     state := buildBasisVec ['1','0'] },
          (drawBits lcg 2 (gateSimulator_init_seed lcg (some 5) 0).2).2)
    ∧ tensorInit lcg 2 (some ['1','0']) (some 5) 0
      = Except.ok ({ n := 2, seed := (gateSimulator_init_seed lcg (some 5) 0).1,
                     state := buildBasisVec ['1','0'] },
          (gateSimulator_init_seed lcg (some 5) 0).2) :=
  c1_rng_divergence.1 lcg 2 ['1','0'] 5 0 (by decide) (by decide)
